import Mathlib

/-!
KVector (`k-vector.h`): a shallow embedding.

`KVector<T>` keeps three fields: `_alloc_size`, `_sz` and the raw pointer
`_array`.  The operations of the class read and write the free store through
raw pointers, so the embedding passes the free store explicitly.

* The free store is a list of blocks; block `b` is either live (`some slots`)
  or released (`none`).  `new T[n]` appends a block of `n` slots, `delete[]`
  releases one.  Block numbers are allocation identities and are never reused.
* A pointer is a block number with a slot offset; the null pointer is `none`.
* Dereferencing a null pointer, a pointer into a released block or a slot
  outside its block is undefined behaviour; the operation then yields `none`.
  Only dereferences are checked, forming an address is not.
* `nullptr < p` is true and `nullptr > p` is false for every non-null `p`, as
  on a flat address space where the null pointer is address zero.
* `std::move` on an element is modelled as a copy of the value, and the element
  destructor as a check that the slot exists.
* An argument bound to a reference parameter (`const T&`, `T&&`, `Args&&...`)
  is an `Arg`: the value of an object outside the free store, or the address of
  a slot.  The referred object is read where the code evaluates `T(args...)`,
  that is after the growth step and, in `Emplace`, after the shift.
* `size_t` values are natural numbers.  Subtraction wraps as on a 64-bit
  machine (`subSizeT`); sums stay exact, allocation being assumed to succeed.
  The definitions whose name ends in `Throws` describe the object that a
  throwing `new` leaves behind.
* The relational operators take the element-level `!=`, `<` and `>` as
  parameters; `neOf`, `ltOf` and `gtOf` are those of a linear order.
* An operation takes the free store and the object and returns the new free
  store and the new object; a temporary is an object that is destroyed before
  the operation returns.
-/

namespace KVec

/-! ## Free store -/

/-- A non-null `T*`: block number and slot offset inside that block. -/
structure Ptr where
  blk : Nat
  off : Nat
deriving DecidableEq, Repr

/-- Pointer arithmetic `p + k`. -/
def Ptr.add (p : Ptr) (k : Nat) : Ptr := ⟨p.blk, p.off + k⟩

/-- The free store: one entry per `new T[n]` ever made, `none` once deleted. -/
abbrev Heap (T : Type) := List (Option (List T))

/-- The slots of block `b`, when it is live. -/
def Heap.block {T : Type} (h : Heap T) (b : Nat) : Option (List T) :=
  match h[b]? with
  | some (some slots) => some slots
  | _ => none

/-- Reading `*p`. -/
def Heap.read {T : Type} (h : Heap T) (p : Ptr) : Option T :=
  match h.block p.blk with
  | some slots => slots[p.off]?
  | none => none

/-- The assignment `*p = x`. -/
def Heap.write {T : Type} (h : Heap T) (p : Ptr) (x : T) : Option (Heap T) :=
  match h.block p.blk with
  | some slots =>
    if p.off < slots.length then some (h.set p.blk (some (slots.set p.off x))) else none
  | none => none

/-- The expression `new T[n]`: a fresh block of `n` default-constructed slots
(for a scalar `T` the initial values are indeterminate; every claim below
reads only slots that were assigned). -/
def newArray {T : Type} [Inhabited T] (h : Heap T) (n : Nat) : Heap T × Ptr :=
  (h ++ [some (List.replicate n default)], ⟨h.length, 0⟩)

/-- The statement `delete[] p` for a non-null `p`. -/
def deleteArray {T : Type} (h : Heap T) (p : Ptr) : Option (Heap T) :=
  match h.block p.blk with
  | some _ => if p.off = 0 then some (h.set p.blk none) else none
  | none => none

/-- Subtraction on `size_t` (64 bits, both operands below `2 ^ 64`). -/
def subSizeT (a b : Nat) : Nat := if b ≤ a then a - b else 2 ^ 64 - (b - a)

/-- The comparison `nullptr < p` on a flat address space: true for every
non-null `p`. -/
def nullLt (p : Option Ptr) : Bool := p.isSome

/-- The comparison `nullptr > p`: never true. -/
def nullGt (_p : Option Ptr) : Bool := false

/-- An argument bound to a reference parameter: an object outside the free
store, given by its value (a temporary, a local variable), or a slot of the
free store, given by its address (such as the reference `v[i]` returns). -/
inductive Arg (T : Type) where
  | val (x : T)
  | ref (p : Ptr)

/-- Evaluating `T(std::forward<Args>(args)...)` on the free store `h`: a
referred slot is read at that moment. -/
def Arg.eval {T : Type} (h : Heap T) : Arg T → Option T
  | Arg.val x => some x
  | Arg.ref p => h.read p

/-! ## The class -/

/-- The data members of `KVector<T>`. -/
structure KVector where
  _alloc_size : Nat
  _sz : Nat
  _array : Option Ptr
deriving DecidableEq, Repr

/-- The private member `swap(KVector<T>& right)`: the pair is `(*this, right)`. -/
def KVector.swap (self right : KVector) : KVector × KVector :=
  (⟨right._alloc_size, right._sz, right._array⟩, ⟨self._alloc_size, self._sz, self._array⟩)

/-- The loop of `shiftRight(source, dest, sz)`: with `n + 1` rounds left the
cursors are `d = dest + n` and `s = source + n`. -/
def shiftRight {T : Type} (h : Heap T) (source dest : Ptr) : Nat → Option (Heap T)
  | 0 => some h
  | n + 1 =>
    match h.read (source.add n) with
    | some x =>
      match h.write (dest.add n) x with
      | some h1 => shiftRight h1 source dest n
      | none => none
    | none => none

/-- The loop of `shiftLeft(source, dest, sz)`: both cursors walk upwards. -/
def shiftLeft {T : Type} (h : Heap T) (source dest : Ptr) : Nat → Option (Heap T)
  | 0 => some h
  | n + 1 =>
    match h.read source with
    | some x =>
      match h.write dest x with
      | some h1 => shiftLeft h1 (source.add 1) (dest.add 1) n
      | none => none
    | none => none

/-- The member `inflateAlloc(newSz)`. -/
def KVector.inflateAlloc {T : Type} [Inhabited T] (h : Heap T) (self : KVector) (newSz : Nat) :
    Option (Heap T × KVector) :=
  let self1 : KVector := { self with _alloc_size := newSz }
  match self1._array with
  | some a =>
    if nullLt self1._array then
      let (h1, narray) := newArray h self1._alloc_size
      match shiftLeft h1 a narray self1._sz with
      | some h2 =>
        match deleteArray h2 a with
        | some h3 => some (h3, { self1 with _array := some narray })
        | none => none
      | none => none
    else if nullGt self1._array then
      let (h1, narray) := newArray h self1._alloc_size
      match shiftRight h1 a narray self1._sz with
      | some h2 =>
        match deleteArray h2 a with
        | some h3 => some (h3, { self1 with _array := some narray })
        | none => none
      | none => none
    else some (h, self1)
  | none => some (h, self1)

/-- The default constructor `KVector()`; `_alloc_size` keeps its member
initializer `20`. -/
def KVector.mk0 {T : Type} [Inhabited T] (h : Heap T) : Heap T × KVector :=
  let (h1, p) := newArray h 20
  (h1, ⟨20, 0, some p⟩)

/-- The member `EmplaceBack(args...)`: the growth step comes first, then
`T(args...)` is evaluated and stored at `_array[_sz++]`; the result carries the
address of the new element. -/
def KVector.EmplaceBack {T : Type} [Inhabited T] (h : Heap T) (self : KVector) (arg : Arg T) :
    Option (Heap T × KVector × Ptr) :=
  match (if self._alloc_size = self._sz
         then self.inflateAlloc h (self._sz + self._sz / 2 + 1) else some (h, self)) with
  | some (h1, self1) =>
    match arg.eval h1 with
    | some x =>
      match self1._array with
      | some a =>
        match h1.write (a.add self1._sz) x with
        | some h2 => some (h2, { self1 with _sz := self1._sz + 1 }, a.add self1._sz)
        | none => none
      | none => none
    | none => none
  | none => none

/-- The member `PushBack(val)`: both overloads forward their reference to
`EmplaceBack`. -/
def KVector.PushBack {T : Type} [Inhabited T] (h : Heap T) (self : KVector) (arg : Arg T) :
    Option (Heap T × KVector) :=
  match self.EmplaceBack h arg with
  | some (h1, self1, _) => some (h1, self1)
  | none => none

/-- The member `Size()`. -/
def KVector.Size (self : KVector) : Nat := self._sz

/-- The reference that `operator[](idx)` returns: the address `_array + idx`. -/
def KVector.refAt (self : KVector) (idx : Nat) : Option Ptr :=
  match self._array with
  | some a => some (a.add idx)
  | none => none

/-- The member `operator[](idx)`, read as a value. -/
def KVector.index {T : Type} (h : Heap T) (self : KVector) (idx : Nat) : Option T :=
  match self._array with
  | some a => h.read (a.add idx)
  | none => none

/-- Calling `PushBack` once per element of `xs`, in order, each element being
an object outside the free store. -/
def pushAll {T : Type} [Inhabited T] : Heap T × KVector → List T → Option (Heap T × KVector)
  | s, [] => some s
  | (h, v), x :: xs =>
    match v.PushBack h (Arg.val x) with
    | some s1 => pushAll s1 xs
    | none => none

/-- The capacity after `n` appends to a default-constructed container: the
test `_alloc_size == _sz` of `EmplaceBack` and its growth step, iterated. -/
def capAfter : Nat → Nat
  | 0 => 20
  | n + 1 => if capAfter n = n then n + n / 2 + 1 else capAfter n

/-- The loop `for (i = 0; i < sz; i++) _array[i] = T();` of the sized
constructor, `n` rounds left, cursor at `i`. -/
def defaultLoop {T : Type} [Inhabited T] (h : Heap T) (a : Ptr) (i : Nat) :
    Nat → Option (Heap T)
  | 0 => some h
  | n + 1 =>
    match h.write (a.add i) default with
    | some h1 => defaultLoop h1 a (i + 1) n
    | none => none

/-- The sized constructor `KVector(size_t sz)`; `_alloc_size` keeps its member
initializer `20`. -/
def KVector.mkSized {T : Type} [Inhabited T] (h : Heap T) (sz : Nat) :
    Option (Heap T × KVector) :=
  let (h1, p) := newArray h (sz + sz / 2 + 1)
  let self : KVector := ⟨20, sz + sz / 2 + 1, some p⟩
  match defaultLoop h1 p 0 sz with
  | some h2 => some (h2, self)
  | none => none

/-- The loop `for (const T& n : lst) _array[_sz++] = std::move(n);`. -/
def storeLoop {T : Type} (h : Heap T) (self : KVector) : List T → Option (Heap T × KVector)
  | [] => some (h, self)
  | n :: rest =>
    match self._array with
    | some a =>
      match h.write (a.add self._sz) n with
      | some h1 => storeLoop h1 { self with _sz := self._sz + 1 } rest
      | none => none
    | none => none

/-- The initializer-list constructor `KVector(std::initializer_list<T> lst)`. -/
def KVector.mkList {T : Type} [Inhabited T] (h : Heap T) (lst : List T) :
    Option (Heap T × KVector) :=
  let i := lst.length
  let (h1, p) := newArray h (i + i / 2 + 1)
  storeLoop h1 ⟨i + i / 2 + 1, 0, some p⟩ lst

/-- The move constructor `KVector(KVector<T>&& r)`: the pair is
`(*this, r)` after the call. -/
def KVector.mkMove (r : KVector) : KVector × KVector :=
  (⟨r._alloc_size, r._sz, r._array⟩, ⟨0, 0, none⟩)

/-- The loop `for (i = 0; i < _sz; i++) _array[i] = right._array[i];` of the
copy constructor, `n` rounds left, cursor at `i`. -/
def copyLoop {T : Type} (h : Heap T) (dst : Ptr) (src : Option Ptr) (i : Nat) :
    Nat → Option (Heap T)
  | 0 => some h
  | n + 1 =>
    match src with
    | some s =>
      match h.read (s.add i) with
      | some x =>
        match h.write (dst.add i) x with
        | some h1 => copyLoop h1 dst src (i + 1) n
        | none => none
      | none => none
    | none => none

/-- The copy constructor `KVector(const KVector& right)`. -/
def KVector.mkCopy {T : Type} [Inhabited T] (h : Heap T) (right : KVector) :
    Option (Heap T × KVector) :=
  let (h1, p) := newArray h right._alloc_size
  match copyLoop h1 p right._array 0 right._sz with
  | some h2 => some (h2, ⟨right._alloc_size, right._sz, some p⟩)
  | none => none

/-- The member `Emplace(iter, args...)`: growth step, shift, then `T(args...)`
is evaluated and stored at `*tempiter`. -/
def KVector.Emplace {T : Type} [Inhabited T] (h : Heap T) (self : KVector) (iter : Ptr)
    (arg : Arg T) : Option (Heap T × KVector × Nat) :=
  match self._array with
  | some a =>
    if iter.blk = a.blk then
      let position := subSizeT iter.off a.off
      let tempiter := iter
      match (if self._alloc_size = self._sz
             then self.inflateAlloc h (self._sz + self._sz / 2 + 1) else some (h, self)) with
      | some (h1, self1) =>
        match shiftRight h1 tempiter (tempiter.add 1) (subSizeT self1._sz position) with
        | some h2 =>
          match arg.eval h2 with
          | some x =>
            match h2.write tempiter x with
            | some h3 => some (h3, { self1 with _sz := self1._sz + 1 }, position)
            | none => none
          | none => none
        | none => none
      | none => none
    else none
  | none => none

/-- The member `InsertAt(pos, val)`: both overloads pass their reference on to
`Emplace`. -/
def KVector.InsertAt {T : Type} [Inhabited T] (h : Heap T) (self : KVector) (pos : Nat)
    (arg : Arg T) : Option (Heap T × KVector × Nat) :=
  match self._array with
  | some a => self.Emplace h (a.add pos) arg
  | none => none

/-- The explicit destructor call `p->~T()`: `T` is taken to be trivially
destructible, the slot must exist and keeps its value. -/
def destroyAt {T : Type} (h : Heap T) (p : Ptr) : Option (Heap T) :=
  match h.read p with
  | some _ => some h
  | none => none

/-- The member `EraseAt(pos)`. -/
def KVector.EraseAt {T : Type} (h : Heap T) (self : KVector) (pos : Nat) :
    Option (Heap T × KVector × Nat) :=
  match self._array with
  | some a =>
    let ptr := a.add pos
    match destroyAt h ptr with
    | some h1 =>
      match shiftLeft h1 (ptr.add 1) ptr (subSizeT self._sz pos) with
      | some h2 => some (h2, { self with _sz := subSizeT self._sz 1 }, pos)
      | none => none
    | none => none
  | none => none

/-- The destructor `~KVector()`. -/
def KVector.destroy {T : Type} (h : Heap T) (self : KVector) : Option (Heap T) :=
  match self._array with
  | some a => deleteArray h a
  | none => some h

/-- The public two-argument member `swap(left, right)` and the friend
`swap(l, r)`: both call `left.swap(right)`. -/
def swap (left right : KVector) : KVector × KVector := left.swap right

/-- The copy assignment `operator=(const KVector<T>& lvect)`: the temporary
`KVector<T>(lvect)` is swapped with `*this` and then destroyed. -/
def KVector.assignCopy {T : Type} [Inhabited T] (h : Heap T) (self lvect : KVector) :
    Option (Heap T × KVector) :=
  match KVector.mkCopy h lvect with
  | some (h1, tmp) =>
    match (self.swap tmp) with
    | (self1, tmp1) =>
      match tmp1.destroy h1 with
      | some h2 => some (h2, self1)
      | none => none
  | none => none

/-- The move assignment `operator=(KVector<T>&& rvect)`: the pair is
`(*this, rvect)` after the call. -/
def KVector.assignMove (self rvect : KVector) : KVector × KVector :=
  self.swap rvect

/-- The list assignment `operator=(std::initializer_list<T> lst)`. -/
def KVector.assignList {T : Type} [Inhabited T] (h : Heap T) (self : KVector) (lst : List T) :
    Option (Heap T × KVector) :=
  match KVector.mkList h lst with
  | some (h1, tmp) =>
    match (self.swap tmp) with
    | (self1, tmp1) =>
      match tmp1.destroy h1 with
      | some h2 => some (h2, self1)
      | none => none
  | none => none

/-- The element write `v[idx] = x` through `operator[]`. -/
def KVector.setIndex {T : Type} (h : Heap T) (self : KVector) (idx : Nat) (x : T) :
    Option (Heap T) :=
  match self._array with
  | some a => h.write (a.add idx) x
  | none => none

/-- The loop `for (i = 0; i < _sz; i++) _array[i].~T();` of `Clear`. -/
def destroyLoop {T : Type} (h : Heap T) (a : Option Ptr) (i : Nat) : Nat → Option (Heap T)
  | 0 => some h
  | n + 1 =>
    match a with
    | some p =>
      match destroyAt h (p.add i) with
      | some h1 => destroyLoop h1 a (i + 1) n
      | none => none
    | none => none

/-- The member `Clear()`. -/
def KVector.Clear {T : Type} (h : Heap T) (self : KVector) : Option (Heap T × KVector) :=
  match destroyLoop h self._array 0 self._sz with
  | some h1 => some (h1, { self with _sz := 0 })
  | none => none

/-- The member `IsEmpty()`. -/
def KVector.IsEmpty (self : KVector) : Bool := self._sz == 0

/-- The allocation behind `_array`: the slots of the live block that `_array`
points to the start of. -/
def KVector.slots {T : Type} (h : Heap T) (self : KVector) : Option (List T) :=
  match self._array with
  | some a => if a.off = 0 then h.block a.blk else none
  | none => none

/-- The container `v` owns a live buffer of exactly `_alloc_size` slots whose
first `_sz` slots hold the sequence `s`. -/
def Rep {T : Type} (h : Heap T) (v : KVector) (s : List T) : Prop :=
  ∃ buf, v.slots h = some buf ∧ buf.length = v._alloc_size ∧ v._sz ≤ v._alloc_size ∧
    buf.take v._sz = s

/-- Between `h` and `h1` no block is lost, and every block of `h` other than the
one `own` points into is the same. -/
def Frame {T : Type} (own : Option Ptr) (h h1 : Heap T) : Prop :=
  h.length ≤ h1.length ∧
    ∀ c, c < h.length → (∀ a, own = some a → c ≠ a.blk) → h1.block c = h.block c

/-- The destructor of `self` is defined on `h`: `_array` is null or points to
the start of a live block. -/
def KVector.destructible {T : Type} (h : Heap T) (self : KVector) : Bool :=
  match self._array with
  | some a => a.off == 0 && (h.block a.blk).isSome
  | none => true

/-! ## Relational operators -/

/-- The loop of `operator==`, `n` rounds left, cursor at `i`; `ne` is `!=` on
the element type. -/
def eqLoop {T : Type} (ne : T → T → Bool) (h : Heap T) (l r : KVector) (i : Nat) :
    Nat → Option Bool
  | 0 => some true
  | n + 1 =>
    match l.index h i, r.index h i with
    | some a, some b => if ne a b then some false else eqLoop ne h l r (i + 1) n
    | _, _ => none

/-- The friend `operator==(l, r)`. -/
def opEq {T : Type} (ne : T → T → Bool) (h : Heap T) (l r : KVector) : Option Bool :=
  if l._sz ≠ r._sz then some false else eqLoop ne h l r 0 l._sz

/-- The friend `operator!=(l, r)`: `!(l == r)`. -/
def opNe {T : Type} (ne : T → T → Bool) (h : Heap T) (l r : KVector) : Option Bool :=
  (opEq ne h l r).map (fun b => !b)

/-- The loop of `operator<` and of `operator>`, `n` rounds left, cursor at `i`.
The two operators differ only in the element comparison `cmp` (`<` or `>`) and
in the size comparison `fin` returned after the loop. -/
def orderLoop {T : Type} (ne cmp : T → T → Bool) (fin : Bool) (h : Heap T) (l r : KVector)
    (i : Nat) : Nat → Option Bool
  | 0 => some fin
  | n + 1 =>
    match l.index h i, r.index h i with
    | some a, some b => if ne a b then some (cmp a b) else orderLoop ne cmp fin h l r (i + 1) n
    | _, _ => none

/-- The friend `operator<(l, r)`; `lt` is `<` on the element type. -/
def opLt {T : Type} (ne lt : T → T → Bool) (h : Heap T) (l r : KVector) : Option Bool :=
  let n := if l._sz < r._sz then l._sz else r._sz
  orderLoop ne lt (decide (l._sz < r._sz)) h l r 0 n

/-- The friend `operator>(l, r)`; `gt` is `>` on the element type. -/
def opGt {T : Type} (ne gt : T → T → Bool) (h : Heap T) (l r : KVector) : Option Bool :=
  let n := if l._sz < r._sz then l._sz else r._sz
  orderLoop ne gt (decide (l._sz > r._sz)) h l r 0 n

/-- The friend `operator<=(l, r)`: `!(l > r)`. -/
def opLe {T : Type} (ne gt : T → T → Bool) (h : Heap T) (l r : KVector) : Option Bool :=
  (opGt ne gt h l r).map (fun b => !b)

/-- The friend `operator>=(l, r)`: `!(l < r)`. -/
def opGe {T : Type} (ne lt : T → T → Bool) (h : Heap T) (l r : KVector) : Option Bool :=
  (opLt ne lt h l r).map (fun b => !b)

/-- The operator `!=` of a linearly ordered element type. -/
def neOf {T : Type} [LinearOrder T] (a b : T) : Bool := decide (a ≠ b)

/-- The operator `<` of a linearly ordered element type. -/
def ltOf {T : Type} [LinearOrder T] (a b : T) : Bool := decide (a < b)

/-- The operator `>` of a linearly ordered element type. -/
def gtOf {T : Type} [LinearOrder T] (a b : T) : Bool := decide (a > b)

/-- The container `v` holds the logical sequence `xs`: `Size()` is its length
and `operator[]` returns its items. -/
def Holds {T : Type} (h : Heap T) (v : KVector) (xs : List T) : Prop :=
  v._sz = xs.length ∧ ∀ i, i < xs.length → v.index h i = xs[i]?

/-- Equality of two logical sequences in the words of the specification: the
lengths are equal and the elements at corresponding indices compare equal. -/
def specEq {T : Type} (ne : T → T → Bool) : List T → List T → Bool
  | [], [] => true
  | x :: xs, y :: ys => !ne x y && specEq ne xs ys
  | _, _ => false

/-- The reference lexicographic order on two logical sequences: the first
position where the elements differ decides through the element comparison; when
one sequence runs out first, the shorter one is the smaller. -/
def refLexLess {T : Type} (ne lt : T → T → Bool) : List T → List T → Bool
  | x :: xs, y :: ys => if ne x y then lt x y else refLexLess ne lt xs ys
  | [], _ :: _ => true
  | _, [] => false

/-! ## Allocation failure and access traces -/

/-- The member `inflateAlloc(newSz)` when its `new T[_alloc_size]` throws
`std::bad_alloc`: the object as the exception leaves it, the free store being
untouched; `none` when the call reaches no allocation. -/
def KVector.inflateAllocThrows (self : KVector) (newSz : Nat) : Option KVector :=
  let self1 : KVector := { self with _alloc_size := newSz }
  if nullLt self1._array then some self1
  else if nullGt self1._array then some self1
  else none

/-- The member `EmplaceBack` when the allocation of its growth step throws: the
exception leaves the call at once, so the object is as `inflateAlloc` left it;
`none` when the call does not grow. -/
def KVector.EmplaceBackThrows (self : KVector) : Option KVector :=
  if self._alloc_size = self._sz
  then self.inflateAllocThrows (self._sz + self._sz / 2 + 1) else none

/-- The member `Emplace` when the allocation of its growth step throws; the
test and the growth call are those of `EmplaceBack`. -/
def KVector.EmplaceThrows (self : KVector) : Option KVector :=
  if self._alloc_size = self._sz
  then self.inflateAllocThrows (self._sz + self._sz / 2 + 1) else none

/-- The addresses `shiftLeft(source, dest, sz)` reads, round by round. -/
def shiftLeftReads (source : Ptr) : Nat → List Ptr
  | 0 => []
  | n + 1 => source :: shiftLeftReads (source.add 1) n

/-- The addresses `shiftLeft(source, dest, sz)` writes, round by round. -/
def shiftLeftWrites (dest : Ptr) : Nat → List Ptr
  | 0 => []
  | n + 1 => dest :: shiftLeftWrites (dest.add 1) n

/-- The addresses the shift of `EraseAt(pos)` reads. -/
def KVector.eraseReads (self : KVector) (pos : Nat) : List Ptr :=
  match self._array with
  | some a => shiftLeftReads ((a.add pos).add 1) (subSizeT self._sz pos)
  | none => []

/-- The addresses the shift of `EraseAt(pos)` writes. -/
def KVector.eraseWrites (self : KVector) (pos : Nat) : List Ptr :=
  match self._array with
  | some a => shiftLeftWrites (a.add pos) (subSizeT self._sz pos)
  | none => []

/-! ## Sample containers -/

/-- A free store with three buffers, as the initializer-list constructor leaves
them for `{1, 2}`, `{1, 2, 3}` and `{1, 3}`. -/
def sampleHeap : Heap Nat := [some [1, 2, 0, 0], some [1, 2, 3, 0, 0], some [1, 3, 0, 0]]

/-- The container built from `{1, 2}`. -/
def sampleA : KVector := ⟨4, 2, some ⟨0, 0⟩⟩

/-- The container built from `{1, 2, 3}`. -/
def sampleB : KVector := ⟨5, 3, some ⟨1, 0⟩⟩

/-- The container built from `{1, 3}`. -/
def sampleC : KVector := ⟨4, 2, some ⟨2, 0⟩⟩

/-- A free store with one buffer of 20 slots, all of them live. -/
def fullHeap : Heap Nat := [some (List.range 20)]

/-- The container after twenty appends: length and capacity are both 20. -/
def fullVec : KVector := ⟨20, 20, some ⟨0, 0⟩⟩

/-! ## Free-store lemmas -/

section HeapLemmas

variable {T : Type}

theorem Heap.block_lt (h : Heap T) (b : Nat) (s : List T) (hb : h.block b = some s) :
    b < h.length := by
  by_contra hlt
  have : h[b]? = none := List.getElem?_eq_none (Nat.le_of_not_lt hlt)
  simp [Heap.block, this] at hb

theorem Heap.block_set_self (h : Heap T) (b : Nat) (x : List T) (hb : b < h.length) :
    Heap.block (h.set b (some x)) b = some x := by
  simp [Heap.block, List.getElem?_set, hb]

theorem Heap.block_set_none (h : Heap T) (b : Nat) :
    Heap.block (h.set b none) b = none := by
  by_cases hb : b < h.length
  · simp [Heap.block, List.getElem?_set, hb]
  · have : (h.set b none)[b]? = none := List.getElem?_eq_none (by simpa using Nat.le_of_not_lt hb)
    simp [Heap.block, this]

theorem Heap.block_set_ne (h : Heap T) (b c : Nat) (x : Option (List T)) (hbc : b ≠ c) :
    Heap.block (h.set b x) c = h.block c := by
  simp [Heap.block, List.getElem?_set, hbc]

theorem Heap.block_append_lt (h : Heap T) (x : Option (List T)) (c : Nat) (hc : c < h.length) :
    Heap.block (h ++ [x]) c = h.block c := by
  simp [Heap.block, List.getElem?_append_left, hc]

theorem Heap.block_append_self (h : Heap T) (x : List T) :
    Heap.block (h ++ [some x]) h.length = some x := by
  simp [Heap.block]

theorem Heap.set_block_same (h : Heap T) (b : Nat) (buf : List T) (hb : h.block b = some buf) :
    h.set b (some buf) = h := by
  have hlt := Heap.block_lt h b buf hb
  apply List.ext_getElem?
  intro i
  by_cases hi : b = i
  · subst hi
    simp only [Heap.block] at hb
    rw [List.getElem?_set_self hlt]
    split at hb <;> simp_all
  · rw [List.getElem?_set_ne hi]

theorem Heap.read_of_block (h : Heap T) (p : Ptr) (s : List T) (hb : h.block p.blk = some s) :
    h.read p = s[p.off]? := by
  simp [Heap.read, hb]

theorem Heap.write_of_block (h : Heap T) (p : Ptr) (x : T) (s : List T)
    (hb : h.block p.blk = some s) (ho : p.off < s.length) :
    h.write p x = some (h.set p.blk (some (s.set p.off x))) := by
  simp [Heap.write, hb, ho]

end HeapLemmas

/-! ## The relocation loop between two different blocks -/

section Relocation

variable {T : Type}

/-- Copying `n` slots from block `bs` to a different block `bd` succeeds when
both ranges are inside their blocks, and rewrites exactly the target range. -/
theorem shiftLeft_cross (n : Nat) : ∀ (h : Heap T) (bs bd so dof : Nat) (src dst : List T),
    bs ≠ bd → h.block bs = some src → h.block bd = some dst →
    so + n ≤ src.length → dof + n ≤ dst.length →
    ∃ dst', shiftLeft h ⟨bs, so⟩ ⟨bd, dof⟩ n = some (h.set bd (some dst')) ∧
      dst'.length = dst.length ∧
      ∀ i, dst'[i]? = if dof ≤ i ∧ i < dof + n then src[so + (i - dof)]? else dst[i]? := by
  induction n with
  | zero =>
    intro h bs bd so dof src dst _ _ hd _ _
    refine ⟨dst, ?_, rfl, ?_⟩
    · simp [shiftLeft, Heap.set_block_same h bd dst hd]
    · intro i
      have : ¬ (dof ≤ i ∧ i < dof + 0) := by omega
      rw [if_neg this]
  | succ n ih =>
    intro h bs bd so dof src dst hne hs hd hso hdo
    have hso' : so < src.length := by omega
    have hdo' : dof < dst.length := by omega
    have hbd := Heap.block_lt h bd dst hd
    have hr : h.read ⟨bs, so⟩ = some src[so] := by
      rw [Heap.read_of_block h ⟨bs, so⟩ src hs]
      exact List.getElem?_eq_getElem hso'
    have hw := Heap.write_of_block h ⟨bd, dof⟩ src[so] dst hd hdo'
    have hs1 : Heap.block (h.set bd (some (dst.set dof src[so]))) bs = some src := by
      rw [Heap.block_set_ne h bd bs _ (Ne.symm hne)]; exact hs
    have hd1 : Heap.block (h.set bd (some (dst.set dof src[so]))) bd
        = some (dst.set dof src[so]) := Heap.block_set_self h bd _ hbd
    obtain ⟨dst', h1, h2, h3⟩ := ih (h.set bd (some (dst.set dof src[so]))) bs bd (so + 1)
      (dof + 1) src (dst.set dof src[so]) hne hs1 hd1 (by omega) (by simp; omega)
    refine ⟨dst', ?_, ?_, ?_⟩
    · simp only [shiftLeft, hr, hw, Ptr.add]
      rw [h1, List.set_set]
    · simpa using h2
    · intro i
      rw [h3 i]
      by_cases hi : i = dof
      · subst hi
        have : ¬ (i + 1 ≤ i ∧ i < i + 1 + n) := by omega
        simp [this, List.getElem?_eq_getElem hso', hdo']
      · by_cases hr2 : dof + 1 ≤ i ∧ i < dof + 1 + n
        · have hr3 : dof ≤ i ∧ i < dof + (n + 1) := by omega
          have : so + 1 + (i - (dof + 1)) = so + (i - dof) := by omega
          simp [hr2, hr3, this]
        · have hr3 : ¬ (dof ≤ i ∧ i < dof + (n + 1)) := by omega
          simp only [hr2, hr3, if_false]
          rw [List.getElem?_set_ne (Ne.symm hi)]

end Relocation

/-! ## The shifting loops inside one block -/

section Shifting

variable {T : Type}

theorem Heap.set_set_block (h : Heap T) (b : Nat) (x y : Option (List T)) :
    (h.set b x).set b y = h.set b y := List.set_set x y h b

/-- Opening a gap: `shiftRight(p, p + 1, n)` inside one block. -/
theorem shiftRight_same (n : Nat) : ∀ (h : Heap T) (b so : Nat) (buf : List T),
    h.block b = some buf → so + n + 1 ≤ buf.length →
    ∃ buf', shiftRight h ⟨b, so⟩ ⟨b, so + 1⟩ n = some (h.set b (some buf')) ∧
      buf'.length = buf.length ∧
      ∀ i, buf'[i]? = if so + 1 ≤ i ∧ i ≤ so + n then buf[i - 1]? else buf[i]? := by
  induction n with
  | zero =>
    intro h b so buf hb _
    refine ⟨buf, ?_, rfl, ?_⟩
    · simp [shiftRight, Heap.set_block_same h b buf hb]
    · intro i
      have : ¬ (so + 1 ≤ i ∧ i ≤ so + 0) := by omega
      rw [if_neg this]
  | succ n ih =>
    intro h b so buf hb hlen
    have hblt := Heap.block_lt h b buf hb
    have hso : so + n < buf.length := by omega
    have hr : h.read ⟨b, so + n⟩ = some buf[so + n] := by
      rw [Heap.read_of_block h ⟨b, so + n⟩ buf hb]
      exact List.getElem?_eq_getElem hso
    have hw := Heap.write_of_block h ⟨b, so + 1 + n⟩ buf[so + n] buf hb (by simp; omega)
    obtain ⟨buf', e1, e2, e3⟩ := ih (h.set b (some (buf.set (so + 1 + n) buf[so + n]))) b so
      (buf.set (so + 1 + n) buf[so + n]) (Heap.block_set_self h b _ hblt) (by simp; omega)
    refine ⟨buf', ?_, by simpa using e2, ?_⟩
    · simp only [shiftRight, Ptr.add, hr, hw]
      rw [e1, Heap.set_set_block]
    · intro i
      rw [e3 i]
      by_cases hi : i = so + 1 + n
      · subst hi
        have h1 : ¬ (so + 1 ≤ so + 1 + n ∧ so + 1 + n ≤ so + n) := by omega
        have h2 : so + 1 ≤ so + 1 + n ∧ so + 1 + n ≤ so + (n + 1) := by omega
        have h3 : so + 1 + n - 1 = so + n := by omega
        rw [if_neg h1, if_pos h2, h3, List.getElem?_set_self (by omega)]
        exact (List.getElem?_eq_getElem hso).symm
      · by_cases hr2 : so + 1 ≤ i ∧ i ≤ so + n
        · have hr3 : so + 1 ≤ i ∧ i ≤ so + (n + 1) := by omega
          rw [if_pos hr2, if_pos hr3, List.getElem?_set_ne (by omega)]
        · have hr3 : ¬ (so + 1 ≤ i ∧ i ≤ so + (n + 1)) := by omega
          rw [if_neg hr2, if_neg hr3, List.getElem?_set_ne (Ne.symm hi)]

/-- Closing a gap: `shiftLeft(p + 1, p, n)` inside one block, when every slot
read lies inside the block. -/
theorem shiftLeft_same (n : Nat) : ∀ (h : Heap T) (b so : Nat) (buf : List T),
    h.block b = some buf → so + 1 + n ≤ buf.length →
    ∃ buf', shiftLeft h ⟨b, so + 1⟩ ⟨b, so⟩ n = some (h.set b (some buf')) ∧
      buf'.length = buf.length ∧
      ∀ i, buf'[i]? = if so ≤ i ∧ i < so + n then buf[i + 1]? else buf[i]? := by
  induction n with
  | zero =>
    intro h b so buf hb _
    refine ⟨buf, ?_, rfl, ?_⟩
    · simp [shiftLeft, Heap.set_block_same h b buf hb]
    · intro i
      have : ¬ (so ≤ i ∧ i < so + 0) := by omega
      rw [if_neg this]
  | succ n ih =>
    intro h b so buf hb hlen
    have hblt := Heap.block_lt h b buf hb
    have hso : so + 1 < buf.length := by omega
    have hr : h.read ⟨b, so + 1⟩ = some buf[so + 1] := by
      rw [Heap.read_of_block h ⟨b, so + 1⟩ buf hb]
      exact List.getElem?_eq_getElem hso
    have hw := Heap.write_of_block h ⟨b, so⟩ buf[so + 1] buf hb (by simp; omega)
    obtain ⟨buf', e1, e2, e3⟩ := ih (h.set b (some (buf.set so buf[so + 1]))) b (so + 1)
      (buf.set so buf[so + 1]) (Heap.block_set_self h b _ hblt) (by simp; omega)
    refine ⟨buf', ?_, by simpa using e2, ?_⟩
    · simp only [shiftLeft, Ptr.add, hr, hw]
      rw [e1, Heap.set_set_block]
    · intro i
      rw [e3 i]
      by_cases hi : i = so
      · subst hi
        have h1 : ¬ (i + 1 ≤ i ∧ i < i + 1 + n) := by omega
        have h2 : i ≤ i ∧ i < i + (n + 1) := by omega
        rw [if_neg h1, if_pos h2, List.getElem?_set_self (by omega)]
        exact (List.getElem?_eq_getElem hso).symm
      · by_cases hr2 : so + 1 ≤ i ∧ i < so + 1 + n
        · have hr3 : so ≤ i ∧ i < so + (n + 1) := by omega
          rw [if_pos hr2, if_pos hr3, List.getElem?_set_ne (by omega)]
        · have hr3 : ¬ (so ≤ i ∧ i < so + (n + 1)) := by omega
          rw [if_neg hr2, if_neg hr3, List.getElem?_set_ne (Ne.symm hi)]

/-- A `shiftLeft` whose reads run past the end of the block is undefined. -/
theorem shiftLeft_overrun (n : Nat) : ∀ (h : Heap T) (b so dof : Nat) (buf : List T),
    h.block b = some buf → buf.length < so + n → so ≤ buf.length → dof ≤ so →
    shiftLeft h ⟨b, so⟩ ⟨b, dof⟩ n = none := by
  induction n with
  | zero => intro h b so dof buf _ h1 h2 _; omega
  | succ n ih =>
    intro h b so dof buf hb h1 h2 h3
    have hblt := Heap.block_lt h b buf hb
    by_cases hso : so = buf.length
    · have hr : h.read ⟨b, so⟩ = none := by
        rw [Heap.read_of_block h ⟨b, so⟩ buf hb]
        exact List.getElem?_eq_none (by simp; omega)
      simp [shiftLeft, hr]
    · have hso' : so < buf.length := by omega
      have hr : h.read ⟨b, so⟩ = some buf[so] := by
        rw [Heap.read_of_block h ⟨b, so⟩ buf hb]
        exact List.getElem?_eq_getElem hso'
      have hw := Heap.write_of_block h ⟨b, dof⟩ buf[so] buf hb (by simp; omega)
      simp only [shiftLeft, Ptr.add, hr, hw]
      exact ih _ b (so + 1) (dof + 1) (buf.set dof buf[so]) (Heap.block_set_self h b _ hblt)
        (by simp; omega) (by simp; omega) (by omega)

end Shifting

/-! ## Appending -/

section Append

variable {T : Type}

theorem take_succ_set (buf : List T) (n : Nat) (x : T) (hn : n < buf.length) :
    (buf.set n x).take (n + 1) = buf.take n ++ [x] := by
  rw [List.take_succ, List.set_take, List.set_eq_of_length_le (by simp)]
  simp [hn]

theorem Rep.length_eq {h : Heap T} {v : KVector} {s : List T} (hr : Rep h v s) :
    s.length = v._sz := by
  obtain ⟨buf, _, h2, h3, h4⟩ := hr
  rw [← h4, List.length_take]; omega

/-- Unfolding of `Rep`: the block number and the slots. -/
theorem Rep.unfold {h : Heap T} {v : KVector} {s : List T} (hr : Rep h v s) :
    ∃ b buf, v._array = some ⟨b, 0⟩ ∧ h.block b = some buf ∧ buf.length = v._alloc_size ∧
      v._sz ≤ v._alloc_size ∧ buf.take v._sz = s := by
  obtain ⟨buf, h1, h2, h3, h4⟩ := hr
  cases ha : v._array with
  | none => simp [KVector.slots, ha] at h1
  | some a =>
    obtain ⟨b, o⟩ := a
    simp only [KVector.slots, ha] at h1
    by_cases ho : o = 0
    · subst ho
      simp at h1
      exact ⟨b, buf, rfl, h1, h2, h3, h4⟩
    · simp [ho] at h1

theorem Rep.intro {h : Heap T} {v : KVector} {s : List T} (b : Nat) (buf : List T)
    (h1 : v._array = some ⟨b, 0⟩) (h2 : h.block b = some buf) (h3 : buf.length = v._alloc_size)
    (h4 : v._sz ≤ v._alloc_size) (h5 : buf.take v._sz = s) : Rep h v s :=
  ⟨buf, by simp [KVector.slots, h1, h2], h3, h4, h5⟩

/-- Growth through `inflateAlloc` on a container that owns its buffer. -/
theorem inflateAlloc_spec [Inhabited T] (h : Heap T) (v : KVector) (s : List T) (newSz : Nat)
    (hr : Rep h v s) (hn : v._sz ≤ newSz) :
    ∃ h1 v1, v.inflateAlloc h newSz = some (h1, v1) ∧ Rep h1 v1 s ∧
      v1._alloc_size = newSz ∧ v1._sz = v._sz ∧
      (∀ a, v._array = some a → h1.block a.blk = none) := by
  obtain ⟨b, buf, ha, hb, hl, hle, ht⟩ := hr.unfold
  have hblt := Heap.block_lt h b buf hb
  have hne : b ≠ h.length := by omega
  obtain ⟨dst', e1, e2, e3⟩ := shiftLeft_cross v._sz
    (h ++ [some (List.replicate newSz default)]) b h.length 0 0 buf (List.replicate newSz default)
    hne (by rw [Heap.block_append_lt h _ b hblt]; exact hb) (Heap.block_append_self h _)
    (by omega) (by simpa using hn)
  have hlen : h.length < (h ++ [some (List.replicate newSz (default : T))]).length := by simp
  have hdel : deleteArray ((h ++ [some (List.replicate newSz default)]).set h.length (some dst'))
      ⟨b, 0⟩ = some (((h ++ [some (List.replicate newSz default)]).set h.length
        (some dst')).set b none) := by
    have : Heap.block ((h ++ [some (List.replicate newSz default)]).set h.length (some dst')) b
        = some buf := by
      rw [Heap.block_set_ne _ _ _ _ (Ne.symm hne), Heap.block_append_lt h _ b hblt]; exact hb
    simp only [deleteArray, this, if_true]
  refine ⟨((h ++ [some (List.replicate newSz default)]).set h.length (some dst')).set b none,
    ⟨newSz, v._sz, some ⟨h.length, 0⟩⟩, ?_, ?_, rfl, rfl, ?_⟩
  · simp only [KVector.inflateAlloc, ha, nullLt, Option.isSome_some, if_true, newArray]
    rw [e1]
    simp only [hdel]
  · refine Rep.intro h.length dst' rfl ?_ ?_ hn ?_
    · rw [Heap.block_set_ne _ _ _ _ hne]
      exact Heap.block_set_self _ _ _ hlen
    · simpa using e2
    · rw [← ht]
      apply List.ext_getElem?
      intro i
      simp only [List.getElem?_take]
      by_cases hi : i < v._sz
      · have : 0 ≤ i ∧ i < 0 + v._sz := by omega
        simp [hi, e3 i, this]
      · simp [hi]
  · intro a haa
    rw [ha] at haa
    cases haa
    exact Heap.block_set_none _ b

/-- One `EmplaceBack` on a container that owns its buffer. -/
theorem EmplaceBack_spec [Inhabited T] (h : Heap T) (v : KVector) (s : List T) (x : T) (hr : Rep h v s) :
    ∃ h1 v1 p, v.EmplaceBack h (Arg.val x) = some (h1, v1, p) ∧ Rep h1 v1 (s ++ [x]) ∧
      v1._array = some (Ptr.mk p.blk 0) ∧ p.off = v._sz ∧
      v1._alloc_size = (if v._alloc_size = v._sz then v._sz + v._sz / 2 + 1 else v._alloc_size) := by
  have key : ∀ (h0 : Heap T) (v0 : KVector), Rep h0 v0 s → v0._sz < v0._alloc_size →
      ∃ h1 p, (match v0._array with
        | some a =>
          match h0.write (a.add v0._sz) x with
          | some h2 => some (h2, { v0 with _sz := v0._sz + 1 }, a.add v0._sz)
          | none => none
        | none => none) = some (h1, ({ v0 with _sz := v0._sz + 1 } : KVector), p) ∧
        Rep h1 { v0 with _sz := v0._sz + 1 } (s ++ [x]) ∧
        v0._array = some (Ptr.mk p.blk 0) ∧ p.off = v0._sz := by
    intro h0 v0 hr0 hlt
    obtain ⟨b, buf, ha, hb, hl, hle, ht⟩ := hr0.unfold
    have hblt := Heap.block_lt h0 b buf hb
    have hw := Heap.write_of_block h0 ⟨b, 0 + v0._sz⟩ x buf hb (by simp; omega)
    refine ⟨h0.set b (some (buf.set (0 + v0._sz) x)), ⟨b, 0 + v0._sz⟩, ?_, ?_, ?_, ?_⟩
    · simp only [ha, Ptr.add, hw]
    · refine Rep.intro b (buf.set (0 + v0._sz) x) ha (Heap.block_set_self _ _ _ hblt)
        (by simpa using hl) (by simp; omega) ?_
      rw [← ht]
      simp only [Nat.zero_add]
      exact take_succ_set buf v0._sz x (by omega)
    · simp [ha]
    · simp
  by_cases hfull : v._alloc_size = v._sz
  · obtain ⟨h1, v1, e1, r1, c1, c2⟩ :=
      inflateAlloc_spec h v s (v._sz + v._sz / 2 + 1) hr (by omega)
    obtain ⟨h2, p, e2, r2, a2, o2⟩ := key h1 v1 r1 (by omega)
    refine ⟨h2, { v1 with _sz := v1._sz + 1 }, p, ?_, r2, a2, by omega, by simp [hfull, c1]⟩
    simp only [KVector.EmplaceBack, hfull, if_true]
    rw [e1]
    simp only [Arg.eval]
    exact e2
  · obtain ⟨_, _, _, _, _, hle, _⟩ := hr.unfold
    obtain ⟨h2, p, e2, r2, a2, o2⟩ := key h v hr (by omega)
    refine ⟨h2, { v with _sz := v._sz + 1 }, p, ?_, r2, a2, o2, by simp [hfull]⟩
    simp only [KVector.EmplaceBack, hfull, if_false, Arg.eval]
    exact e2

theorem Rep.index_eq {h : Heap T} {v : KVector} {s : List T} (hr : Rep h v s) (i : Nat)
    (hi : i < s.length) : v.index h i = s[i]? := by
  obtain ⟨b, buf, ha, hb, hl, hle, ht⟩ := hr.unfold
  have hlen := hr.length_eq
  simp only [KVector.index, ha, Ptr.add]
  rw [Heap.read_of_block h ⟨b, 0 + i⟩ buf hb, ← ht, List.getElem?_take]
  simp only [Nat.zero_add]
  rw [if_pos (by omega)]

theorem mk0_rep [Inhabited T] (h : Heap T) :
    Rep (KVector.mk0 h).1 (KVector.mk0 h).2 ([] : List T) := by
  refine Rep.intro h.length (List.replicate 20 default) rfl ?_ (by simp [KVector.mk0]) ?_ ?_
  · exact Heap.block_append_self h _
  · simp [KVector.mk0]
  · simp [KVector.mk0]

theorem PushBack_spec [Inhabited T] (h : Heap T) (v : KVector) (s : List T) (x : T)
    (hr : Rep h v s) :
    ∃ h1 v1, v.PushBack h (Arg.val x) = some (h1, v1) ∧ Rep h1 v1 (s ++ [x]) ∧
      v1._alloc_size = (if v._alloc_size = v._sz then v._sz + v._sz / 2 + 1
        else v._alloc_size) := by
  obtain ⟨h1, v1, p, e, r, _, _, c⟩ := EmplaceBack_spec h v s x hr
  exact ⟨h1, v1, by simp [KVector.PushBack, e], r, c⟩

theorem pushAll_spec [Inhabited T] (xs : List T) : ∀ (h : Heap T) (v : KVector) (s : List T),
    Rep h v s → v._alloc_size = capAfter s.length →
    ∃ h1 v1, pushAll (h, v) xs = some (h1, v1) ∧ Rep h1 v1 (s ++ xs) ∧
      v1._alloc_size = capAfter (s ++ xs).length := by
  induction xs with
  | nil => intro h v s hr hc; exact ⟨h, v, rfl, by simpa using hr, by simpa using hc⟩
  | cons x xs ih =>
    intro h v s hr hc
    obtain ⟨h1, v1, e1, r1, c1⟩ := PushBack_spec h v s x hr
    have hc1 : v1._alloc_size = capAfter (s ++ [x]).length := by
      rw [c1, List.length_append, List.length_singleton, capAfter, ← hc, hr.length_eq]
    obtain ⟨h2, v2, e2, r2, c2⟩ := ih h1 v1 (s ++ [x]) r1 hc1
    refine ⟨h2, v2, ?_, by simpa using r2, by simpa using c2⟩
    simp only [pushAll, e1]
    exact e2

/-! ## Positional insertion and removal -/

theorem getElem?_insert_mid (s : List T) (pos : Nat) (x : T) (hp : pos ≤ s.length) (i : Nat) :
    (s.take pos ++ x :: s.drop pos)[i]? =
      if i < pos then s[i]? else if i = pos then some x else s[i - 1]? := by
  have hl : (s.take pos).length = pos := by simp [hp]
  by_cases h1 : i < pos
  · rw [if_pos h1, List.getElem?_append_left (by omega), List.getElem?_take, if_pos h1]
  · rw [if_neg h1, List.getElem?_append_right (by omega), hl]
    by_cases h2 : i = pos
    · subst h2; simp
    · rw [if_neg h2]
      obtain ⟨k, hk⟩ : ∃ k, i - pos = k + 1 := ⟨i - pos - 1, by omega⟩
      rw [hk, List.getElem?_cons_succ, List.getElem?_drop]
      congr 1; omega

theorem getElem?_erase_mid (s : List T) (pos : Nat) (hp : pos ≤ s.length) (i : Nat) :
    (s.take pos ++ s.drop (pos + 1))[i]? = if i < pos then s[i]? else s[i + 1]? := by
  have hl : (s.take pos).length = pos := by simp [hp]
  by_cases h1 : i < pos
  · rw [if_pos h1, List.getElem?_append_left (by omega), List.getElem?_take, if_pos h1]
  · rw [if_neg h1, List.getElem?_append_right (by omega), hl, List.getElem?_drop]
    congr 1; omega

/-- `InsertAt` with room to spare: the element lands at `pos`, the rest moves up. -/
theorem InsertAt_spec [Inhabited T] (h : Heap T) (v : KVector) (s : List T) (pos : Nat) (x : T)
    (hr : Rep h v s) (hroom : v._sz < v._alloc_size) (hpos : pos ≤ v._sz) :
    ∃ h1 v1, v.InsertAt h pos (Arg.val x) = some (h1, v1, pos) ∧
      Rep h1 v1 (s.take pos ++ x :: s.drop pos) ∧ v1._alloc_size = v._alloc_size ∧
      v1._sz = v._sz + 1 := by
  obtain ⟨b, buf, ha, hb, hl, hle, ht⟩ := hr.unfold
  have hblt := Heap.block_lt h b buf hb
  have hsl := hr.length_eq
  obtain ⟨buf', e1, e2, e3⟩ := shiftRight_same (v._sz - pos) h b pos buf hb (by omega)
  have hw := Heap.write_of_block (h.set b (some buf')) ⟨b, pos⟩ x buf'
    (Heap.block_set_self h b _ hblt) (by simp; omega)
  refine ⟨h.set b (some (buf'.set pos x)), { v with _sz := v._sz + 1 }, ?_, ?_, rfl, rfl⟩
  · have hne : ¬ v._alloc_size = v._sz := by omega
    have hsub : subSizeT v._sz pos = v._sz - pos := by simp [subSizeT, hpos]
    simp only [KVector.InsertAt, KVector.Emplace, ha, Ptr.add, Nat.zero_add, if_true, hne,
      if_false, subSizeT, Nat.zero_le, Nat.sub_zero, hpos]
    rw [e1]
    simp only [Arg.eval, hw, Heap.set_set_block]
  · refine Rep.intro b (buf'.set pos x) ha (Heap.block_set_self h b _ hblt)
      (by simp [e2, hl]) (by simp; omega) ?_
    apply List.ext_getElem?
    intro i
    rw [getElem?_insert_mid s pos x (by omega) i, List.getElem?_take]
    simp only []
    by_cases h1 : i < pos
    · have h2 : ¬ (pos + 1 ≤ i ∧ i ≤ pos + (v._sz - pos)) := by omega
      rw [if_pos (by omega), if_pos h1, List.getElem?_set_ne (by omega), e3 i, if_neg h2, ← ht,
        List.getElem?_take, if_pos (by omega)]
    · rw [if_neg h1]
      by_cases h3 : i = pos
      · subst h3
        rw [if_pos (by omega), if_pos rfl, List.getElem?_set_self (by omega)]
      · rw [if_neg h3]
        by_cases h4 : i < v._sz + 1
        · have h2 : pos + 1 ≤ i ∧ i ≤ pos + (v._sz - pos) := by omega
          rw [if_pos h4, List.getElem?_set_ne (by omega), e3 i, if_pos h2, ← ht,
            List.getElem?_take, if_pos (by omega)]
        · rw [if_neg h4]
          exact (List.getElem?_eq_none (by omega)).symm

theorem shiftRight_released (h : Heap T) (source dest : Ptr) (n : Nat)
    (hb : h.block source.blk = none) : shiftRight h source dest (n + 1) = none := by
  have : h.read (source.add n) = none := by simp [Heap.read, Ptr.add, hb]
  simp [shiftRight, this]

/-- `InsertAt` on a full container: `inflateAlloc` releases the block that
`tempiter` still points into, and the shift or the store dereferences it. -/
theorem InsertAt_full [Inhabited T] (h : Heap T) (v : KVector) (s : List T) (pos : Nat)
    (arg : Arg T) (hr : Rep h v s) (hfull : v._alloc_size = v._sz) :
    v.InsertAt h pos arg = none := by
  obtain ⟨b, buf, ha, hb, hl, hle, ht⟩ := hr.unfold
  obtain ⟨h1, v1, e1, r1, c1, c2, c3⟩ :=
    inflateAlloc_spec h v s (v._sz + v._sz / 2 + 1) hr (by omega)
  have hrel : h1.block b = none := c3 ⟨b, 0⟩ ha
  simp only [KVector.InsertAt, KVector.Emplace, ha, Ptr.add, Nat.zero_add, if_true, hfull]
  rw [e1]
  simp only []
  cases hn : subSizeT v1._sz (subSizeT pos 0) with
  | zero =>
    cases he : arg.eval h1 with
    | none => simp [shiftRight, he]
    | some y => simp [shiftRight, he, Heap.write, hrel]
  | succ n => rw [shiftRight_released h1 _ _ n hrel]

/-- `EmplaceBack` of one of the container's own slots on a full container:
`inflateAlloc` releases the block the reference points into before `T(args...)`
reads it. -/
theorem EmplaceBack_own_slot_full [Inhabited T] (h : Heap T) (v : KVector) (s : List T)
    (p : Ptr) (hr : Rep h v s) (hfull : v._alloc_size = v._sz)
    (hp : ∀ a, v._array = some a → p.blk = a.blk) :
    v.EmplaceBack h (Arg.ref p) = none := by
  obtain ⟨b, buf, ha, _⟩ := hr.unfold
  obtain ⟨h1, v1, e1, r1, c1, c2, c3⟩ :=
    inflateAlloc_spec h v s (v._sz + v._sz / 2 + 1) hr (by omega)
  have hrel : h1.block p.blk = none := by rw [hp _ ha]; exact c3 ⟨b, 0⟩ ha
  simp only [KVector.EmplaceBack, hfull, if_true]
  rw [e1]
  simp [Arg.eval, Heap.read, hrel]

/-- `PushBack(v[i])` on a full container that owns its buffer is undefined,
whatever the index. -/
theorem PushBack_own_element_full [Inhabited T] (h : Heap T) (v : KVector) (s : List T)
    (i : Nat) (p : Ptr) (hr : Rep h v s) (hfull : v._alloc_size = v._sz)
    (hp : v.refAt i = some p) : v.PushBack h (Arg.ref p) = none := by
  have hblk : ∀ a, v._array = some a → p.blk = a.blk := by
    intro a ha
    simp only [KVector.refAt, ha, Option.some.injEq] at hp
    rw [← hp]; rfl
  simp only [KVector.PushBack, EmplaceBack_own_slot_full h v s p hr hfull hblk]

/-- `InsertAt(0, v[2])` on the container built from `{1, 2, 3}` (capacity 5):
the shift has moved element 1 into slot 2 before `T(args...)` reads it, so the
container then holds `2, 1, 2, 3`. -/
theorem InsertAt_own_element_shifted :
    ∃ h v p h1 v1, KVector.mkList ([] : Heap Nat) [1, 2, 3] = some (h, v) ∧
      v.refAt 2 = some p ∧ v.index h 2 = some 3 ∧
      v.InsertAt h 0 (Arg.ref p) = some (h1, v1, 0) ∧ v1._sz = 4 ∧
      v1.index h1 0 = some 2 ∧ v1.index h1 1 = some 1 ∧ v1.index h1 2 = some 2 ∧
      v1.index h1 3 = some 3 := by
  refine ⟨_, _, _, _, _, rfl, rfl, rfl, rfl, rfl, rfl, rfl, rfl, rfl⟩

/-- `EraseAt` with at least one spare slot behind the live elements. -/
theorem EraseAt_spec (h : Heap T) (v : KVector) (s : List T) (pos : Nat)
    (hr : Rep h v s) (hroom : v._sz < v._alloc_size) (hpos : pos < v._sz) :
    ∃ h1 v1, v.EraseAt h pos = some (h1, v1, pos) ∧
      Rep h1 v1 (s.take pos ++ s.drop (pos + 1)) ∧ v1._alloc_size = v._alloc_size ∧
      v1._sz = v._sz - 1 := by
  obtain ⟨b, buf, ha, hb, hl, hle, ht⟩ := hr.unfold
  have hblt := Heap.block_lt h b buf hb
  have hsl := hr.length_eq
  obtain ⟨buf', e1, e2, e3⟩ := shiftLeft_same (v._sz - pos) h b pos buf hb (by omega)
  have hpl : pos < buf.length := by omega
  have hrd : h.read ⟨b, pos⟩ = some buf[pos] := by
    rw [Heap.read_of_block h ⟨b, pos⟩ buf hb]
    exact List.getElem?_eq_getElem hpl
  refine ⟨h.set b (some buf'), { v with _sz := v._sz - 1 }, ?_, ?_, rfl, rfl⟩
  · have h1 : subSizeT v._sz pos = v._sz - pos := by simp [subSizeT]; omega
    have h2 : subSizeT v._sz 1 = v._sz - 1 := by simp [subSizeT]; omega
    simp only [KVector.EraseAt, ha, Ptr.add, Nat.zero_add, destroyAt, hrd, h1, h2]
    rw [e1]
  · refine Rep.intro b buf' ha (Heap.block_set_self h b _ hblt) (by simp [e2, hl])
      (by simp; omega) ?_
    apply List.ext_getElem?
    intro i
    rw [getElem?_erase_mid s pos (by omega) i, List.getElem?_take]
    simp only []
    by_cases h4 : i < v._sz - 1
    · rw [if_pos h4, e3 i]
      by_cases h1 : i < pos
      · have h2 : ¬ (pos ≤ i ∧ i < pos + (v._sz - pos)) := by omega
        rw [if_neg h2, if_pos h1, ← ht, List.getElem?_take, if_pos (by omega)]
      · have h2 : pos ≤ i ∧ i < pos + (v._sz - pos) := by omega
        rw [if_pos h2, if_neg h1, ← ht, List.getElem?_take, if_pos (by omega)]
    · rw [if_neg h4]
      by_cases h1 : i < pos
      · omega
      · rw [if_neg h1]
        exact (List.getElem?_eq_none (by omega)).symm

/-- `EraseAt` on a full container: the shift moves `_sz - pos` slots starting
at `pos + 1`, so its last read is slot `_sz`, one past the end of the block. -/
theorem EraseAt_full (h : Heap T) (v : KVector) (s : List T) (pos : Nat)
    (hr : Rep h v s) (hfull : v._alloc_size = v._sz) (hpos : pos < v._sz) :
    v.EraseAt h pos = none := by
  obtain ⟨b, buf, ha, hb, hl, hle, ht⟩ := hr.unfold
  have hpl : pos < buf.length := by omega
  have hrd : h.read ⟨b, pos⟩ = some buf[pos] := by
    rw [Heap.read_of_block h ⟨b, pos⟩ buf hb]
    exact List.getElem?_eq_getElem hpl
  have h1 : subSizeT v._sz pos = v._sz - pos := by simp [subSizeT]; omega
  have hov := shiftLeft_overrun (v._sz - pos) h b (pos + 1) pos buf hb (by omega) (by omega)
    (by omega)
  simp only [KVector.EraseAt, ha, Ptr.add, Nat.zero_add, destroyAt, hrd, h1]
  rw [hov]

/-- Inserting at `pos` and erasing at `pos` again, with two spare slots. -/
theorem InsertAt_EraseAt_spec [Inhabited T] (h : Heap T) (v : KVector) (s : List T) (pos : Nat)
    (x : T) (hr : Rep h v s) (hroom : v._sz + 1 < v._alloc_size) (hpos : pos ≤ v._sz) :
    ∃ h1 v1 h2 v2, v.InsertAt h pos (Arg.val x) = some (h1, v1, pos) ∧
      v1.EraseAt h1 pos = some (h2, v2, pos) ∧ Rep h2 v2 s ∧ v2._sz = v._sz := by
  have hsl := hr.length_eq
  obtain ⟨h1, v1, e1, r1, c1, z1⟩ := InsertAt_spec h v s pos x hr (by omega) hpos
  obtain ⟨h2, v2, e2, r2, c2, z2⟩ := EraseAt_spec h1 v1 _ pos r1 (by omega) (by omega)
  refine ⟨h1, v1, h2, v2, e1, e2, ?_, by omega⟩
  have hl : (s.take pos).length = pos := by simp; omega
  have t1 : (s.take pos ++ x :: s.drop pos).take pos = s.take pos := by
    rw [List.take_append_of_le_length (by omega), List.take_take]; simp
  have t2 : (s.take pos ++ x :: s.drop pos).drop (pos + 1) = s.drop pos := by
    rw [List.drop_append_eq_append_drop, hl,
      List.drop_eq_nil_of_le (by omega : (s.take pos).length ≤ pos + 1)]
    simp
  rw [t1, t2, List.take_append_drop] at r2
  exact r2

/-! ## The sized constructor -/

theorem defaultLoop_spec [Inhabited T] (n : Nat) : ∀ (h : Heap T) (b i : Nat) (buf : List T),
    h.block b = some buf → i + n ≤ buf.length →
    ∃ buf', defaultLoop h ⟨b, 0⟩ i n = some (h.set b (some buf')) ∧
      buf'.length = buf.length ∧
      ∀ j, buf'[j]? = if i ≤ j ∧ j < i + n then some default else buf[j]? := by
  induction n with
  | zero =>
    intro h b i buf hb _
    refine ⟨buf, by simp [defaultLoop, Heap.set_block_same h b buf hb], rfl, ?_⟩
    intro j
    have : ¬ (i ≤ j ∧ j < i + 0) := by omega
    rw [if_neg this]
  | succ n ih =>
    intro h b i buf hb hlen
    have hblt := Heap.block_lt h b buf hb
    have hw := Heap.write_of_block h ⟨b, 0 + i⟩ default buf hb (by simp; omega)
    obtain ⟨buf', e1, e2, e3⟩ := ih (h.set b (some (buf.set (0 + i) default))) b (i + 1)
      (buf.set (0 + i) default) (Heap.block_set_self h b _ hblt) (by simp; omega)
    refine ⟨buf', ?_, by simpa using e2, ?_⟩
    · simp only [defaultLoop, Ptr.add, hw]
      rw [e1, Heap.set_set_block]
    · intro j
      rw [e3 j]
      simp only [Nat.zero_add]
      by_cases hj : j = i
      · subst hj
        have h1 : ¬ (j + 1 ≤ j ∧ j < j + 1 + n) := by omega
        have h2 : j ≤ j ∧ j < j + (n + 1) := by omega
        rw [if_neg h1, if_pos h2, List.getElem?_set_self (by omega)]
      · by_cases hr2 : i + 1 ≤ j ∧ j < i + 1 + n
        · have hr3 : i ≤ j ∧ j < i + (n + 1) := by omega
          rw [if_pos hr2, if_pos hr3]
        · have hr3 : ¬ (i ≤ j ∧ j < i + (n + 1)) := by omega
          rw [if_neg hr2, if_neg hr3, List.getElem?_set_ne (Ne.symm hj)]

/-- The sized constructor: what it allocates and what it leaves in the fields. -/
theorem mkSized_spec [Inhabited T] (h : Heap T) (sz : Nat) :
    ∃ h1 buf, KVector.mkSized h sz = some (h1, ⟨20, sz + sz / 2 + 1, some ⟨h.length, 0⟩⟩) ∧
      h1.block h.length = some buf ∧ buf.length = sz + sz / 2 + 1 ∧
      ∀ j, j < sz + sz / 2 + 1 → buf[j]? = some default := by
  obtain ⟨buf', e1, e2, e3⟩ := defaultLoop_spec sz
    (h ++ [some (List.replicate (sz + sz / 2 + 1) default)]) h.length 0
    (List.replicate (sz + sz / 2 + 1) default) (Heap.block_append_self h _) (by simp; omega)
  refine ⟨(h ++ [some (List.replicate (sz + sz / 2 + 1) default)]).set h.length (some buf'),
    buf', ?_, Heap.block_set_self _ _ _ (List.length_append h _ ▸ Nat.lt_succ_self _),
    by simpa using e2, ?_⟩
  · simp only [KVector.mkSized, newArray]
    rw [e1]
  · intro j hj
    rw [e3 j]
    split
    · rfl
    · simp [List.getElem?_replicate, hj]

end Append

/-! ## Frame: which blocks an operation can touch -/

section Frame

variable {T : Type}

theorem Frame.refl (own : Option Ptr) (h : Heap T) : Frame own h h :=
  ⟨Nat.le_refl _, fun _ _ _ => rfl⟩

theorem Heap.write_frame (h h1 : Heap T) (p : Ptr) (x : T) (e : h.write p x = some h1) :
    h1.length = h.length ∧ ∀ c, c ≠ p.blk → h1.block c = h.block c := by
  unfold Heap.write at e
  split at e
  · split at e
    · cases e
      exact ⟨by simp, fun c hc => Heap.block_set_ne h _ c _ (Ne.symm hc)⟩
    · cases e
  · cases e

theorem deleteArray_frame (h h1 : Heap T) (p : Ptr) (e : deleteArray h p = some h1) :
    h1.length = h.length ∧ ∀ c, c ≠ p.blk → h1.block c = h.block c := by
  unfold deleteArray at e
  split at e
  · split at e
    · cases e
      exact ⟨by simp, fun c hc => Heap.block_set_ne h _ c _ (Ne.symm hc)⟩
    · cases e
  · cases e

theorem shiftLeft_frame (n : Nat) : ∀ (h h1 : Heap T) (s d : Ptr),
    shiftLeft h s d n = some h1 →
    h1.length = h.length ∧ ∀ c, c ≠ d.blk → h1.block c = h.block c := by
  induction n with
  | zero => intro h h1 s d e; cases e; exact ⟨rfl, fun _ _ => rfl⟩
  | succ n ih =>
    intro h h1 s d e
    simp only [shiftLeft] at e
    cases hr : h.read s with
    | none => simp [hr] at e
    | some x =>
      cases hw : h.write d x with
      | none => simp [hr, hw] at e
      | some h2 =>
        simp only [hr, hw] at e
        obtain ⟨l1, f1⟩ := Heap.write_frame h h2 d x hw
        obtain ⟨l2, f2⟩ := ih h2 h1 (s.add 1) (d.add 1) e
        exact ⟨by omega, fun c hc => by rw [f2 c hc, f1 c hc]⟩

theorem shiftRight_frame (n : Nat) : ∀ (h h1 : Heap T) (s d : Ptr),
    shiftRight h s d n = some h1 →
    h1.length = h.length ∧ ∀ c, c ≠ d.blk → h1.block c = h.block c := by
  induction n with
  | zero => intro h h1 s d e; cases e; exact ⟨rfl, fun _ _ => rfl⟩
  | succ n ih =>
    intro h h1 s d e
    simp only [shiftRight] at e
    cases hr : h.read (s.add n) with
    | none => simp [hr] at e
    | some x =>
      cases hw : h.write (d.add n) x with
      | none => simp [hr, hw] at e
      | some h2 =>
        simp only [hr, hw] at e
        obtain ⟨l1, f1⟩ := Heap.write_frame h h2 (d.add n) x hw
        obtain ⟨l2, f2⟩ := ih h2 h1 s d e
        exact ⟨by omega, fun c hc => by rw [f2 c hc, f1 c hc]⟩

/-- Growth touches the owned block and the fresh one only; afterwards `_array`
is the old pointer or the start of the fresh block. -/
theorem inflateAlloc_frame [Inhabited T] (h h1 : Heap T) (v v1 : KVector) (n : Nat)
    (e : v.inflateAlloc h n = some (h1, v1)) :
    Frame v._array h h1 ∧ v1._alloc_size = n ∧ v1._sz = v._sz ∧
      (v1._array = v._array ∧ h1 = h ∨ v1._array = some ⟨h.length, 0⟩) := by
  unfold KVector.inflateAlloc at e
  simp only [nullGt, Bool.false_eq_true, if_false] at e
  split at e
  · rename_i a ha
    split at e
    · simp only [newArray] at e
      split at e
      · rename_i h2 hs
        split at e
        · rename_i h3 hd
          cases e
          obtain ⟨l2, f2⟩ := shiftLeft_frame _ _ _ _ _ hs
          obtain ⟨l3, f3⟩ := deleteArray_frame _ _ _ hd
          refine ⟨⟨?_, ?_⟩, rfl, rfl, Or.inr rfl⟩
          · rw [l3, l2]; simp
          · intro c hc hn
            have hca : c ≠ a.blk := hn a ha
            rw [f3 c hca, f2 c (by simp; omega), Heap.block_append_lt h _ c hc]
        · cases e
      · cases e
    · cases e
      exact ⟨Frame.refl _ _, rfl, rfl, Or.inl ⟨rfl, rfl⟩⟩
  · cases e
    exact ⟨Frame.refl _ _, rfl, rfl, Or.inl ⟨rfl, rfl⟩⟩

theorem Frame.write {own : Option Ptr} {h h2 h3 : Heap T} (f : Frame own h h2) (p : Ptr)
    (x : T) (hp : (∃ a, own = some a ∧ a.blk = p.blk) ∨ h.length ≤ p.blk)
    (e : h2.write p x = some h3) :
    Frame own h h3 := by
  obtain ⟨l, g⟩ := Heap.write_frame h2 h3 p x e
  refine ⟨by have := f.1; omega, fun c hc hn => ?_⟩
  have hcp : c ≠ p.blk := by
    rcases hp with ⟨a, hp, hab⟩ | hp
    · rw [← hab]; exact hn a hp
    · omega
  rw [g c hcp, f.2 c hc hn]

/-- What `EmplaceBack` can touch, and what it does to the fields. -/
theorem EmplaceBack_frame [Inhabited T] (h h1 : Heap T) (v v1 : KVector) (arg : Arg T)
    (p : Ptr) (e : v.EmplaceBack h arg = some (h1, v1, p)) :
    Frame v._array h h1 ∧ v1._sz = v._sz + 1 ∧
      v1._alloc_size = (if v._alloc_size = v._sz then v._sz + v._sz / 2 + 1
        else v._alloc_size) := by
  unfold KVector.EmplaceBack at e
  have key : ∀ (h2 : Heap T) (v2 : KVector), Frame v._array h h2 →
      (v2._array = v._array ∨ v2._array = some ⟨h.length, 0⟩) →
      (match arg.eval h2 with
        | some x =>
          match v2._array with
          | some a =>
            match h2.write (a.add v2._sz) x with
            | some h3 => some (h3, { v2 with _sz := v2._sz + 1 }, a.add v2._sz)
            | none => none
          | none => none
        | none => none) = some (h1, v1, p) →
      Frame v._array h h1 ∧ v1._sz = v2._sz + 1 ∧ v1._alloc_size = v2._alloc_size := by
    intro h2 v2 f ha e2
    cases hev : arg.eval h2 with
    | none => simp [hev] at e2
    | some x =>
      simp only [hev] at e2
      cases ha2 : v2._array with
      | none => simp [ha2] at e2
      | some a =>
        simp only [ha2] at e2
        cases hw : h2.write (a.add v2._sz) x with
        | none => simp [hw] at e2
        | some h3 =>
          simp only [hw, Option.some.injEq, Prod.mk.injEq] at e2
          obtain ⟨e3, e4, _⟩ := e2
          subst e3 e4
          refine ⟨f.write (a.add v2._sz) x ?_ hw, rfl, rfl⟩
          rcases ha with ha | ha
          · left
            exact ⟨a, by rw [← ha, ha2], rfl⟩
          · right
            rw [ha2] at ha
            cases ha
            simp [Ptr.add]
  by_cases hfull : v._alloc_size = v._sz
  · simp only [hfull, if_true] at e ⊢
    cases hi : v.inflateAlloc h (v._sz + v._sz / 2 + 1) with
    | none => simp [hi] at e
    | some r =>
      obtain ⟨h2, v2⟩ := r
      simp only [hi] at e
      obtain ⟨f, c1, c2, c3⟩ := inflateAlloc_frame h h2 v v2 _ hi
      have ha : v2._array = v._array ∨ v2._array = some ⟨h.length, 0⟩ := by
        rcases c3 with c3 | c3
        · exact Or.inl c3.1
        · exact Or.inr c3
      obtain ⟨k1, k2, k3⟩ := key h2 v2 f ha e
      exact ⟨k1, by omega, by omega⟩
  · simp only [hfull, if_false] at e ⊢
    exact key h v (Frame.refl _ _) (Or.inl rfl) e

theorem PushBack_frame [Inhabited T] (h h1 : Heap T) (v v1 : KVector) (arg : Arg T)
    (e : v.PushBack h arg = some (h1, v1)) :
    Frame v._array h h1 ∧ v1._sz = v._sz + 1 ∧
      v1._alloc_size = (if v._alloc_size = v._sz then v._sz + v._sz / 2 + 1
        else v._alloc_size) := by
  unfold KVector.PushBack at e
  cases he : v.EmplaceBack h arg with
  | none => simp [he] at e
  | some r =>
    obtain ⟨h2, v2, p⟩ := r
    simp only [he, Option.some.injEq, Prod.mk.injEq] at e
    obtain ⟨e1, e2⟩ := e
    subst e1 e2
    exact EmplaceBack_frame h h2 v v2 arg p he

theorem Frame.step {own : Option Ptr} {h h2 h3 : Heap T} (f : Frame own h h2) (a : Ptr)
    (b : Nat) (hp : own = some a) (hb : a.blk = b)
    (g : h3.length = h2.length ∧ ∀ c, c ≠ b → h3.block c = h2.block c) :
    Frame own h h3 := by
  refine ⟨by have := f.1; omega, fun c hc hn => ?_⟩
  rw [g.2 c (hb ▸ hn _ hp), f.2 c hc hn]

/-- What `InsertAt` can touch, and what it does to the fields. -/
theorem InsertAt_frame [Inhabited T] (h h1 : Heap T) (v v1 : KVector) (pos k : Nat)
    (arg : Arg T) (e : v.InsertAt h pos arg = some (h1, v1, k)) :
    Frame v._array h h1 ∧ v1._sz = v._sz + 1 ∧
      v1._alloc_size = (if v._alloc_size = v._sz then v._sz + v._sz / 2 + 1
        else v._alloc_size) := by
  unfold KVector.InsertAt at e
  cases ha : v._array with
  | none => simp [ha] at e
  | some a =>
    obtain ⟨b, o⟩ := a
    simp only [ha, KVector.Emplace, Ptr.add, if_true] at e
    have key : ∀ (h2 : Heap T) (v2 : KVector), Frame (some ⟨b, o⟩) h h2 →
        (match shiftRight h2 ⟨b, o + pos⟩ ⟨b, o + pos + 1⟩
            (subSizeT v2._sz (subSizeT (o + pos) o)) with
          | some h3 =>
            match arg.eval h3 with
            | some x =>
              match h3.write ⟨b, o + pos⟩ x with
              | some h4 => some (h4, { v2 with _sz := v2._sz + 1 }, subSizeT (o + pos) o)
              | none => none
            | none => none
          | none => none) = some (h1, v1, k) →
        Frame (some ⟨b, o⟩) h h1 ∧ v1._sz = v2._sz + 1 ∧ v1._alloc_size = v2._alloc_size := by
      intro h2 v2 f e2
      cases hs : shiftRight h2 ⟨b, o + pos⟩ ⟨b, o + pos + 1⟩
          (subSizeT v2._sz (subSizeT (o + pos) o)) with
      | none => rw [hs] at e2; simp at e2
      | some h3 =>
        simp only [hs] at e2
        cases hev : arg.eval h3 with
        | none => rw [hev] at e2; simp at e2
        | some x =>
          simp only [hev] at e2
          cases hw : h3.write ⟨b, o + pos⟩ x with
          | none => rw [hw] at e2; simp at e2
          | some h4 =>
            simp only [hw, Option.some.injEq, Prod.mk.injEq] at e2
            obtain ⟨e3, e4, _⟩ := e2
            subst e3 e4
            have f3 := f.step ⟨b, o⟩ b rfl rfl (shiftRight_frame _ _ _ _ _ hs)
            exact ⟨f3.step ⟨b, o⟩ b rfl rfl (Heap.write_frame _ _ _ _ hw), rfl, rfl⟩
    by_cases hfull : v._alloc_size = v._sz
    · simp only [hfull, if_true] at e ⊢
      cases hi : v.inflateAlloc h (v._sz + v._sz / 2 + 1) with
      | none => simp [hi] at e
      | some r =>
        obtain ⟨h2, v2⟩ := r
        simp only [hi] at e
        obtain ⟨f, c1, c2, c3⟩ := inflateAlloc_frame h h2 v v2 _ hi
        rw [ha] at f
        obtain ⟨k1, k2, k3⟩ := key h2 v2 f e
        exact ⟨k1, by omega, by omega⟩
    · simp only [hfull, if_false] at e ⊢
      exact key h v (Frame.refl _ _) e

/-- What `EraseAt` can touch, and what it does to the fields. -/
theorem EraseAt_frame (h h1 : Heap T) (v v1 : KVector) (pos k : Nat)
    (e : v.EraseAt h pos = some (h1, v1, k)) :
    Frame v._array h h1 ∧ v1._sz = subSizeT v._sz 1 ∧ v1._alloc_size = v._alloc_size := by
  unfold KVector.EraseAt at e
  cases ha : v._array with
  | none => simp [ha] at e
  | some a =>
    obtain ⟨b, o⟩ := a
    simp only [ha, destroyAt, Ptr.add] at e
    cases hr : h.read ⟨b, o + pos⟩ with
    | none => rw [hr] at e; simp at e
    | some y =>
      simp only [hr] at e
      cases hs : shiftLeft h ⟨b, o + pos + 1⟩ ⟨b, o + pos⟩ (subSizeT v._sz pos) with
      | none => rw [hs] at e; simp at e
      | some h3 =>
        simp only [hs, Option.some.injEq, Prod.mk.injEq] at e
        obtain ⟨e3, e4, _⟩ := e
        subst e3 e4
        exact ⟨(Frame.refl _ h).step ⟨b, o⟩ b rfl rfl (shiftLeft_frame _ _ _ _ _ hs), rfl, rfl⟩

/-- What an element write through `operator[]` can touch. -/
theorem setIndex_frame (h h1 : Heap T) (v : KVector) (idx : Nat) (x : T)
    (e : v.setIndex h idx x = some h1) : Frame v._array h h1 := by
  unfold KVector.setIndex at e
  cases ha : v._array with
  | none => simp [ha] at e
  | some a =>
    simp only [ha] at e
    exact (Frame.refl _ h).step a a.blk rfl rfl (Heap.write_frame h h1 (a.add idx) x e)

end Frame

/-! ## Copying and list construction -/

section Copying

variable {T : Type}

theorem Heap.set_append_last (h : Heap T) (x y : Option (List T)) :
    (h ++ [x]).set h.length y = h ++ [y] := by
  simp

theorem copyLoop_spec (n : Nat) : ∀ (h : Heap T) (bs so bd i : Nat) (sbuf dbuf : List T),
    bs ≠ bd → h.block bs = some sbuf → h.block bd = some dbuf →
    so + i + n ≤ sbuf.length → i + n ≤ dbuf.length →
    ∃ dbuf', copyLoop h ⟨bd, 0⟩ (some ⟨bs, so⟩) i n = some (h.set bd (some dbuf')) ∧
      dbuf'.length = dbuf.length ∧
      ∀ j, dbuf'[j]? = if i ≤ j ∧ j < i + n then sbuf[so + j]? else dbuf[j]? := by
  induction n with
  | zero =>
    intro h bs so bd i sbuf dbuf _ _ hd _ _
    refine ⟨dbuf, by simp [copyLoop, Heap.set_block_same h bd dbuf hd], rfl, ?_⟩
    intro j
    have : ¬ (i ≤ j ∧ j < i + 0) := by omega
    rw [if_neg this]
  | succ n ih =>
    intro h bs so bd i sbuf dbuf hne hs hd hsl hdl
    have hsi : so + i < sbuf.length := by omega
    have hbd := Heap.block_lt h bd dbuf hd
    have hr : h.read ⟨bs, so + i⟩ = some sbuf[so + i] := by
      rw [Heap.read_of_block h ⟨bs, so + i⟩ sbuf hs]
      exact List.getElem?_eq_getElem hsi
    have hw := Heap.write_of_block h ⟨bd, 0 + i⟩ sbuf[so + i] dbuf hd (by simp; omega)
    obtain ⟨dbuf', e1, e2, e3⟩ := ih (h.set bd (some (dbuf.set (0 + i) sbuf[so + i]))) bs so bd
      (i + 1) sbuf (dbuf.set (0 + i) sbuf[so + i])
      hne (by rw [Heap.block_set_ne h bd bs _ (Ne.symm hne)]; exact hs)
      (Heap.block_set_self h bd _ hbd) (by omega) (by simp; omega)
    refine ⟨dbuf', ?_, by simpa using e2, ?_⟩
    · simp only [copyLoop, Ptr.add, hr, hw]
      rw [e1, Heap.set_set_block]
    · intro j
      rw [e3 j]
      simp only [Nat.zero_add]
      by_cases hj : j = i
      · subst hj
        have h1 : ¬ (j + 1 ≤ j ∧ j < j + 1 + n) := by omega
        have h2 : j ≤ j ∧ j < j + (n + 1) := by omega
        rw [if_neg h1, if_pos h2, List.getElem?_set_self (by omega)]
        exact (List.getElem?_eq_getElem hsi).symm
      · by_cases hr2 : i + 1 ≤ j ∧ j < i + 1 + n
        · have hr3 : i ≤ j ∧ j < i + (n + 1) := by omega
          rw [if_pos hr2, if_pos hr3]
        · have hr3 : ¬ (i ≤ j ∧ j < i + (n + 1)) := by omega
          rw [if_neg hr2, if_neg hr3, List.getElem?_set_ne (Ne.symm hj)]

/-- A container whose live elements can all be read points into a live block
that holds them. -/
theorem live_unfold (h : Heap T) (r : KVector) (hpos : 0 < r._sz)
    (hlive : ∀ i, i < r._sz → (r.index h i).isSome) :
    ∃ bs so sbuf, r._array = some ⟨bs, so⟩ ∧ h.block bs = some sbuf ∧
      so + r._sz ≤ sbuf.length := by
  have h0 := hlive (r._sz - 1) (by omega)
  cases hp : r._array with
  | none => simp [KVector.index, hp] at h0
  | some p =>
    obtain ⟨bs, so⟩ := p
    simp only [KVector.index, hp, Heap.read, Ptr.add] at h0
    cases hb : h.block bs with
    | none => simp [hb] at h0
    | some sbuf =>
      simp only [hb] at h0
      refine ⟨bs, so, sbuf, rfl, hb, ?_⟩
      by_contra hcon
      have : sbuf[so + (r._sz - 1)]? = none := List.getElem?_eq_none (by omega)
      simp [this] at h0

/-- The copy constructor appends one block to the free store; that block has
the source's capacity and starts with the source's live elements. -/
theorem mkCopy_spec [Inhabited T] (h : Heap T) (r : KVector) (hcap : r._sz ≤ r._alloc_size)
    (hlive : ∀ i, i < r._sz → (r.index h i).isSome) :
    ∃ dbuf, KVector.mkCopy h r
        = some (h ++ [some dbuf], ⟨r._alloc_size, r._sz, some ⟨h.length, 0⟩⟩) ∧
      dbuf.length = r._alloc_size ∧ ∀ i, i < r._sz → dbuf[i]? = r.index h i := by
  by_cases hz : r._sz = 0
  · refine ⟨List.replicate r._alloc_size default, ?_, by simp, ?_⟩
    · simp [KVector.mkCopy, newArray, hz, copyLoop]
    · intro i hi; omega
  · obtain ⟨bs, so, sbuf, hp, hb, hl⟩ := live_unfold h r (by omega) hlive
    have hblt := Heap.block_lt h bs sbuf hb
    obtain ⟨dbuf', e1, e2, e3⟩ := copyLoop_spec r._sz
      (h ++ [some (List.replicate r._alloc_size default)]) bs so h.length 0 sbuf
      (List.replicate r._alloc_size default) (by omega)
      (by rw [Heap.block_append_lt h _ bs hblt]; exact hb) (Heap.block_append_self h _)
      (by omega) (by simp; omega)
    refine ⟨dbuf', ?_, by simpa using e2, ?_⟩
    · simp only [KVector.mkCopy, newArray, hp]
      rw [e1, Heap.set_append_last]
    · intro i hi
      have : 0 ≤ i ∧ i < 0 + r._sz := by omega
      rw [e3 i, if_pos this]
      simp only [KVector.index, hp, Ptr.add]
      rw [Heap.read_of_block h ⟨bs, so + i⟩ sbuf hb]

theorem storeLoop_spec (lst : List T) : ∀ (h : Heap T) (b k cap : Nat) (buf : List T),
    h.block b = some buf → k + lst.length ≤ buf.length →
    ∃ buf', storeLoop h ⟨cap, k, some ⟨b, 0⟩⟩ lst
        = some (h.set b (some buf'), ⟨cap, k + lst.length, some ⟨b, 0⟩⟩) ∧
      buf'.length = buf.length ∧
      ∀ j, buf'[j]? = if k ≤ j ∧ j < k + lst.length then lst[j - k]? else buf[j]? := by
  induction lst with
  | nil =>
    intro h b k cap buf hb _
    refine ⟨buf, by simp [storeLoop, Heap.set_block_same h b buf hb], rfl, ?_⟩
    intro j
    have : ¬ (k ≤ j ∧ j < k + ([] : List T).length) := by simp
    rw [if_neg this]
  | cons x xs ih =>
    intro h b k cap buf hb hlen
    simp only [List.length_cons] at hlen
    have hblt := Heap.block_lt h b buf hb
    have hw := Heap.write_of_block h ⟨b, 0 + k⟩ x buf hb (by simp; omega)
    obtain ⟨buf', e1, e2, e3⟩ := ih (h.set b (some (buf.set (0 + k) x))) b (k + 1) cap
      (buf.set (0 + k) x) (Heap.block_set_self h b _ hblt) (by simp; omega)
    refine ⟨buf', ?_, by simpa using e2, ?_⟩
    · simp only [storeLoop, Ptr.add, hw]
      rw [e1, Heap.set_set_block]
      simp only [List.length_cons]
      have : k + 1 + xs.length = k + (xs.length + 1) := by omega
      rw [this]
    · intro j
      rw [e3 j]
      simp only [Nat.zero_add, List.length_cons]
      by_cases hj : j = k
      · subst hj
        have h1 : ¬ (j + 1 ≤ j ∧ j < j + 1 + xs.length) := by omega
        have h2 : j ≤ j ∧ j < j + (xs.length + 1) := by omega
        rw [if_neg h1, if_pos h2, List.getElem?_set_self (by omega)]
        simp
      · by_cases hr2 : k + 1 ≤ j ∧ j < k + 1 + xs.length
        · have hr3 : k ≤ j ∧ j < k + (xs.length + 1) := by omega
          obtain ⟨m, hm⟩ : ∃ m, j - k = m + 1 := ⟨j - k - 1, by omega⟩
          have hm2 : j - (k + 1) = m := by omega
          rw [if_pos hr2, if_pos hr3, hm, hm2, List.getElem?_cons_succ]
        · have hr3 : ¬ (k ≤ j ∧ j < k + (xs.length + 1)) := by omega
          rw [if_neg hr2, if_neg hr3, List.getElem?_set_ne (Ne.symm hj)]

/-- The initializer-list constructor appends one block of `n + n/2 + 1` slots
that starts with the `n` items. -/
theorem mkList_spec [Inhabited T] (h : Heap T) (lst : List T) :
    ∃ buf, KVector.mkList h lst = some (h ++ [some buf],
        ⟨lst.length + lst.length / 2 + 1, lst.length, some ⟨h.length, 0⟩⟩) ∧
      buf.length = lst.length + lst.length / 2 + 1 ∧
      ∀ i, i < lst.length → buf[i]? = lst[i]? := by
  obtain ⟨buf', e1, e2, e3⟩ := storeLoop_spec lst
    (h ++ [some (List.replicate (lst.length + lst.length / 2 + 1) default)]) h.length 0
    (lst.length + lst.length / 2 + 1) (List.replicate (lst.length + lst.length / 2 + 1) default)
    (Heap.block_append_self h _) (by simp; omega)
  refine ⟨buf', ?_, by simpa using e2, ?_⟩
  · simp only [KVector.mkList, newArray]
    rw [e1, Heap.set_append_last, Nat.zero_add]
  · intro i hi
    have : 0 ≤ i ∧ i < 0 + lst.length := by omega
    rw [e3 i, if_pos this, Nat.sub_zero]

/-- Destroying the old value of the target after a fresh block was appended:
the fresh block stays, the old block is released, nothing else changes. -/
theorem destroy_after_append (h : Heap T) (a : KVector) (buf : List T)
    (ha : a.destructible h = true) :
    ∃ h2, a.destroy (h ++ [some buf]) = some h2 ∧ h2.block h.length = some buf ∧
      (∀ p, a._array = some p → h2.block p.blk = none) ∧
      (∀ c, c < h.length → (∀ p, a._array = some p → c ≠ p.blk) → h2.block c = h.block c) := by
  cases hp : a._array with
  | none =>
    refine ⟨h ++ [some buf], by simp [KVector.destroy, hp], Heap.block_append_self h _, ?_, ?_⟩
    · intro p hp2; cases hp2
    · intro c hc _; exact Heap.block_append_lt h _ c hc
  | some p =>
    simp only [KVector.destructible, hp, Bool.and_eq_true, beq_iff_eq] at ha
    obtain ⟨ho, hb⟩ := ha
    obtain ⟨abuf, habuf⟩ := Option.isSome_iff_exists.mp hb
    have hlt := Heap.block_lt h p.blk abuf habuf
    refine ⟨(h ++ [some buf]).set p.blk none, ?_, ?_, ?_, ?_⟩
    · simp [KVector.destroy, hp, deleteArray, Heap.block_append_lt h _ p.blk hlt, habuf, ho]
    · rw [Heap.block_set_ne _ _ _ _ (by omega)]
      exact Heap.block_append_self h _
    · intro q hq
      cases hq
      exact Heap.block_set_none _ _
    · intro c hc hn
      rw [Heap.block_set_ne _ _ _ _ (Ne.symm (hn p rfl))]
      exact Heap.block_append_lt h _ c hc

theorem live_block_lt (h : Heap T) (r : KVector) (i : Nat) (p : Ptr)
    (hlive : (r.index h i).isSome) (hp : r._array = some p) : p.blk < h.length := by
  simp only [KVector.index, hp, Heap.read, Ptr.add] at hlive
  cases hb : h.block p.blk with
  | none => simp [hb] at hlive
  | some buf => exact Heap.block_lt h p.blk buf hb

/-- Reads of `r` agree on two free stores that agree on the block of `r`. -/
theorem index_congr (h h1 : Heap T) (r : KVector) (i : Nat)
    (hb : ∀ p, r._array = some p → h1.block p.blk = h.block p.blk) :
    r.index h1 i = r.index h i := by
  cases hp : r._array with
  | none => simp [KVector.index, hp]
  | some p => simp only [KVector.index, hp, Heap.read, Ptr.add, hb p hp]

/-- The copy constructor and what follows it: the copy owns the fresh block,
and any later change confined to that block or to newer blocks leaves the live
elements of the source readable with the same values. -/
theorem mkCopy_frame [Inhabited T] (h : Heap T) (r : KVector) (hcap : r._sz ≤ r._alloc_size)
    (hlive : ∀ i, i < r._sz → (r.index h i).isSome) :
    ∃ h1 c, KVector.mkCopy h r = some (h1, c) ∧ c._array = some ⟨h.length, 0⟩ ∧
      c._sz = r._sz ∧ c._alloc_size = r._alloc_size ∧
      (∃ s, Rep h1 c s) ∧
      (∀ i, i < r._sz → c.index h1 i = r.index h i) ∧
      (∀ h2, Frame c._array h1 h2 → ∀ i, i < r._sz → r.index h2 i = r.index h i) := by
  obtain ⟨dbuf, e, hl, hd⟩ := mkCopy_spec h r hcap hlive
  refine ⟨_, _, e, rfl, rfl, rfl, ?_, ?_, ?_⟩
  · exact ⟨dbuf.take r._sz,
      Rep.intro h.length dbuf rfl (Heap.block_append_self h _) hl hcap rfl⟩
  · intro i hi
    simp only [KVector.index, Ptr.add, Nat.zero_add]
    rw [Heap.read_of_block _ ⟨h.length, i⟩ dbuf (Heap.block_append_self h _)]
    exact hd i hi
  · intro h2 f i hi
    apply index_congr
    intro p hp
    have hlt := live_block_lt h r i p (hlive i hi) hp
    rw [f.2 p.blk (by simp; omega) (by intro a ha; cases ha; simp; omega)]
    exact Heap.block_append_lt h _ p.blk hlt

theorem mkCopy_fields [Inhabited T] (h h1 : Heap T) (r c : KVector)
    (e : KVector.mkCopy h r = some (h1, c)) :
    c._sz = r._sz ∧ c._alloc_size = r._alloc_size := by
  simp only [KVector.mkCopy, newArray] at e
  split at e
  · cases e; exact ⟨rfl, rfl⟩
  · cases e

/-- Every constructor other than the sized one establishes `_sz ≤ _alloc_size`,
and every mutating operation keeps it. -/
theorem invariant_elsewhere [Inhabited T] (h : Heap T) (v w : KVector) (x : Arg T) (pos : Nat)
    (lst : List T) (hv : v._sz ≤ v._alloc_size) (hw : w._sz ≤ w._alloc_size) :
    (KVector.mk0 h).2._sz ≤ (KVector.mk0 h).2._alloc_size ∧
    (∀ h1 v1, KVector.mkList h lst = some (h1, v1) → v1._sz ≤ v1._alloc_size) ∧
    (∀ h1 v1, KVector.mkCopy h v = some (h1, v1) → v1._sz ≤ v1._alloc_size) ∧
    ((KVector.mkMove v).1._sz ≤ (KVector.mkMove v).1._alloc_size ∧
      (KVector.mkMove v).2._sz ≤ (KVector.mkMove v).2._alloc_size) ∧
    (∀ h1 v1 p, v.EmplaceBack h x = some (h1, v1, p) → v1._sz ≤ v1._alloc_size) ∧
    (∀ h1 v1, v.PushBack h x = some (h1, v1) → v1._sz ≤ v1._alloc_size) ∧
    (∀ h1 v1 k, v.InsertAt h pos x = some (h1, v1, k) → v1._sz ≤ v1._alloc_size) ∧
    (∀ h1 v1 k, pos < v._sz → v.EraseAt h pos = some (h1, v1, k) →
      v1._sz ≤ v1._alloc_size) ∧
    (∀ h1 v1, v.Clear h = some (h1, v1) → v1._sz ≤ v1._alloc_size) ∧
    (∀ h1 v1, v.assignCopy h w = some (h1, v1) → v1._sz ≤ v1._alloc_size) ∧
    ((v.assignMove w).1._sz ≤ (v.assignMove w).1._alloc_size ∧
      (v.assignMove w).2._sz ≤ (v.assignMove w).2._alloc_size) ∧
    (∀ h1 v1, v.assignList h lst = some (h1, v1) → v1._sz ≤ v1._alloc_size) ∧
    ((swap v w).1._sz ≤ (swap v w).1._alloc_size ∧
      (swap v w).2._sz ≤ (swap v w).2._alloc_size) := by
  have grow : ∀ (v1 : KVector), v1._sz = v._sz + 1 →
      v1._alloc_size = (if v._alloc_size = v._sz then v._sz + v._sz / 2 + 1
        else v._alloc_size) → v1._sz ≤ v1._alloc_size := by
    intro v1 e1 e2
    split at e2 <;> omega
  refine ⟨by simp [KVector.mk0, newArray], ?_, ?_, ⟨hv, Nat.le_refl 0⟩, ?_, ?_, ?_, ?_, ?_, ?_,
    ⟨hw, hv⟩, ?_, ⟨hw, hv⟩⟩
  · intro h1 v1 e
    obtain ⟨buf, e2, _⟩ := mkList_spec h lst
    rw [e2] at e
    cases e
    simp only []
    omega
  · intro h1 v1 e
    obtain ⟨e1, e2⟩ := mkCopy_fields h h1 v v1 e
    omega
  · intro h1 v1 p e
    obtain ⟨_, e1, e2⟩ := EmplaceBack_frame h h1 v v1 x p e
    exact grow v1 e1 e2
  · intro h1 v1 e
    obtain ⟨_, e1, e2⟩ := PushBack_frame h h1 v v1 x e
    exact grow v1 e1 e2
  · intro h1 v1 k e
    obtain ⟨_, e1, e2⟩ := InsertAt_frame h h1 v v1 pos k x e
    exact grow v1 e1 e2
  · intro h1 v1 k hp e
    obtain ⟨_, e1, e2⟩ := EraseAt_frame h h1 v v1 pos k e
    have : subSizeT v._sz 1 = v._sz - 1 := by simp [subSizeT]; omega
    omega
  · intro h1 v1 e
    simp only [KVector.Clear] at e
    split at e
    · cases e; exact Nat.zero_le _
    · cases e
  · intro h1 v1 e
    simp only [KVector.assignCopy] at e
    cases hc : KVector.mkCopy h w with
    | none => rw [hc] at e; simp at e
    | some r =>
      obtain ⟨h2, tmp⟩ := r
      obtain ⟨e1, e2⟩ := mkCopy_fields h h2 w tmp hc
      simp only [hc, KVector.swap] at e
      split at e
      · cases e; simp only []; omega
      · cases e
  · intro h1 v1 e
    obtain ⟨buf, e2, _⟩ := mkList_spec h lst
    simp only [KVector.assignList, e2, KVector.swap] at e
    split at e
    · cases e; simp only []; omega
    · cases e

/-- The copy loop with more rounds than the destination block has slots runs
past the end of the block. -/
theorem copyLoop_overrun (n : Nat) : ∀ (h : Heap T) (b : Nat) (src : Option Ptr) (i : Nat)
    (buf : List T), h.block b = some buf → i ≤ buf.length → buf.length < i + n →
    copyLoop h ⟨b, 0⟩ src i n = none := by
  induction n with
  | zero => intro h b src i buf _ hi hl; omega
  | succ n ih =>
    intro h b src i buf hb hi hl
    cases src with
    | none => rfl
    | some s =>
      simp only [copyLoop]
      cases hr : h.read (s.add i) with
      | none => rfl
      | some x =>
        simp only []
        by_cases hlt : i < buf.length
        · have hw := Heap.write_of_block h ⟨b, 0 + i⟩ x buf hb (by simpa using hlt)
          simp only [Ptr.add, hw]
          exact ih _ b (some s) (i + 1) (buf.set (0 + i) x)
            (Heap.block_set_self h b _ (Heap.block_lt h b buf hb)) (by simp; omega)
            (by simp; omega)
        · have hw : h.write ⟨b, 0 + i⟩ x = none := by
            simp only [Heap.write, hb]
            rw [if_neg (by simpa using hlt)]
          simp only [Ptr.add, hw]

/-- The copy constructor on a source whose length exceeds its capacity: the
fresh buffer has `_alloc_size` slots and the loop stores `_sz` elements. -/
theorem mkCopy_overrun [Inhabited T] (h : Heap T) (r : KVector) (hbad : r._alloc_size < r._sz) :
    KVector.mkCopy h r = none := by
  have e := copyLoop_overrun r._sz (h ++ [some (List.replicate r._alloc_size default)])
    h.length r._array 0 (List.replicate r._alloc_size default) (Heap.block_append_self h _)
    (Nat.zero_le _) (by simpa using hbad)
  simp only [KVector.mkCopy, newArray]
  rw [e]

/-- Copy assignment from the result of the sized constructor `KVector(n)` with
`n ≥ 14`: the source has length `n + n/2 + 1 > 20` and capacity 20, and the
temporary cannot be built. -/
theorem assignCopy_sized_overrun [Inhabited T] (h : Heap T) (a : KVector) (n : Nat)
    (hn : 14 ≤ n) :
    ∃ h1 b, KVector.mkSized h n = some (h1, b) ∧ b._alloc_size < b._sz ∧
      KVector.mkCopy h1 b = none ∧ a.assignCopy h1 b = none := by
  obtain ⟨h1, buf, e, _⟩ := mkSized_spec h n
  have hbad : (⟨20, n + n / 2 + 1, some ⟨h.length, 0⟩⟩ : KVector)._alloc_size
      < (⟨20, n + n / 2 + 1, some ⟨h.length, 0⟩⟩ : KVector)._sz := by
    simp only []; omega
  have hc := mkCopy_overrun h1 _ hbad
  refine ⟨h1, _, e, hbad, hc, ?_⟩
  simp only [KVector.assignCopy, hc]

end Copying

/-! ## Relational operators on logical sequences -/

section Relational

variable {T : Type}

theorem Holds.index_some {h : Heap T} {v : KVector} {xs : List T} (hv : Holds h v xs) (i : Nat)
    (hi : i < xs.length) : v.index h i = some xs[i] := by
  rw [hv.2 i hi]
  exact List.getElem?_eq_getElem hi

/-- A container that owns its buffer holds the sequence of its live slots. -/
theorem Rep.holds {h : Heap T} {v : KVector} {s : List T} (hr : Rep h v s) : Holds h v s :=
  ⟨hr.length_eq.symm, fun i hi => hr.index_eq i hi⟩

/-- Allocating one more block does not disturb what a container holds. -/
theorem Holds.append {h : Heap T} {v : KVector} {xs : List T} (hv : Holds h v xs)
    (b : Option (List T)) : Holds (h ++ [b]) v xs := by
  refine ⟨hv.1, fun i hi => ?_⟩
  rw [← hv.2 i hi]
  apply index_congr
  intro p hp
  have hlive : (v.index h i).isSome := by rw [hv.index_some i hi]; rfl
  exact Heap.block_append_lt h b p.blk (live_block_lt h v i p hlive hp)

/-- The initializer-list constructor returns a container that holds the list. -/
theorem mkList_holds [Inhabited T] (h : Heap T) (lst : List T) :
    ∃ buf, KVector.mkList h lst = some (h ++ [some buf],
        ⟨lst.length + lst.length / 2 + 1, lst.length, some ⟨h.length, 0⟩⟩) ∧
      buf.length = lst.length + lst.length / 2 + 1 ∧
      Holds (h ++ [some buf]) ⟨lst.length + lst.length / 2 + 1, lst.length,
        some ⟨h.length, 0⟩⟩ lst := by
  obtain ⟨buf, e, hl, hd⟩ := mkList_spec h lst
  refine ⟨buf, e, hl, rfl, fun i hi => ?_⟩
  simp only [KVector.index, Ptr.add, Nat.zero_add]
  rw [Heap.read_of_block _ ⟨h.length, i⟩ buf (Heap.block_append_self h _)]
  exact hd i hi

theorem specEq_length (ne : T → T → Bool) : ∀ (xs ys : List T),
    specEq ne xs ys = true → xs.length = ys.length
  | [], [], _ => rfl
  | [], _ :: _, e => by simp [specEq] at e
  | _ :: _, [], e => by simp [specEq] at e
  | x :: xs, y :: ys, e => by
    simp only [specEq, Bool.and_eq_true] at e
    simp [specEq_length ne xs ys e.2]

/-- The recursive reading of `specEq` agrees with the index-wise wording. -/
theorem specEq_iff (ne : T → T → Bool) : ∀ (xs ys : List T),
    specEq ne xs ys = true ↔
      xs.length = ys.length ∧
        ∀ i (hi : i < xs.length) (hj : i < ys.length), ne xs[i] ys[i] = false
  | [], [] => by simp [specEq]
  | [], _ :: _ => by simp [specEq]
  | _ :: _, [] => by simp [specEq]
  | x :: xs, y :: ys => by
    simp only [specEq, Bool.and_eq_true, Bool.not_eq_true', List.length_cons,
      Nat.add_right_cancel_iff, specEq_iff ne xs ys]
    constructor
    · rintro ⟨h0, hl, hr⟩
      refine ⟨hl, fun i hi hj => ?_⟩
      cases i with
      | zero => exact h0
      | succ k => exact hr k (by omega) (by omega)
    · rintro ⟨hl, hr⟩
      refine ⟨hr 0 (by omega) (by omega), hl, fun i hi hj => ?_⟩
      exact hr (i + 1) (by omega) (by omega)

theorem eqLoop_spec (ne : T → T → Bool) (h : Heap T) (l r : KVector) (xs ys : List T)
    (hl : Holds h l xs) (hr : Holds h r ys) (hlen : xs.length = ys.length) (n : Nat) :
    ∀ i, i + n = xs.length →
      eqLoop ne h l r i n = some (specEq ne (xs.drop i) (ys.drop i)) := by
  induction n with
  | zero =>
    intro i hi
    rw [List.drop_eq_nil_of_le (by omega), List.drop_eq_nil_of_le (by omega)]
    rfl
  | succ n ih =>
    intro i hi
    have h1 : i < xs.length := by omega
    have h2 : i < ys.length := by omega
    rw [List.drop_eq_getElem_cons h1, List.drop_eq_getElem_cons h2]
    simp only [eqLoop, hl.index_some i h1, hr.index_some i h2, specEq]
    rw [ih (i + 1) (by omega)]
    cases ne xs[i] ys[i] <;> simp

/-- `operator==` computes `specEq` on the two logical sequences. -/
theorem opEq_spec (ne : T → T → Bool) (h : Heap T) (l r : KVector) (xs ys : List T)
    (hl : Holds h l xs) (hr : Holds h r ys) :
    opEq ne h l r = some (specEq ne xs ys) := by
  unfold opEq
  by_cases hlen : xs.length = ys.length
  · have : ¬ l._sz ≠ r._sz := by rw [hl.1, hr.1]; simpa using hlen
    rw [if_neg this, hl.1, eqLoop_spec ne h l r xs ys hl hr hlen xs.length 0 (by omega)]
    simp
  · have : l._sz ≠ r._sz := by rw [hl.1, hr.1]; exact hlen
    rw [if_pos this]
    cases hs : specEq ne xs ys with
    | false => rfl
    | true => exact absurd (specEq_length ne xs ys hs) hlen

theorem refLexLess_nil_right (ne lt : T → T → Bool) (xs : List T) :
    refLexLess ne lt xs [] = false := by
  cases xs <;> rfl

theorem orderLoop_lt_spec (ne cmp : T → T → Bool) (h : Heap T) (l r : KVector)
    (xs ys : List T) (hl : Holds h l xs) (hr : Holds h r ys) (n : Nat) :
    ∀ i, i + n = min xs.length ys.length →
      orderLoop ne cmp (decide (xs.length < ys.length)) h l r i n
        = some (refLexLess ne cmp (xs.drop i) (ys.drop i)) := by
  induction n with
  | zero =>
    intro i hi
    by_cases hlt : xs.length < ys.length
    · have h2 : i < ys.length := by omega
      rw [List.drop_eq_nil_of_le (by omega), List.drop_eq_getElem_cons h2]
      simp [orderLoop, refLexLess, hlt]
    · rw [List.drop_eq_nil_of_le (by omega : ys.length ≤ i), refLexLess_nil_right]
      simp [orderLoop, hlt]
  | succ n ih =>
    intro i hi
    have h1 : i < xs.length := by omega
    have h2 : i < ys.length := by omega
    rw [List.drop_eq_getElem_cons h1, List.drop_eq_getElem_cons h2]
    simp only [orderLoop, hl.index_some i h1, hr.index_some i h2, refLexLess]
    rw [ih (i + 1) (by omega)]
    cases ne xs[i] ys[i] <;> simp

theorem orderLoop_gt_spec (ne cmp : T → T → Bool) (h : Heap T) (l r : KVector)
    (xs ys : List T) (hl : Holds h l xs) (hr : Holds h r ys) (n : Nat) :
    ∀ i, i + n = min xs.length ys.length →
      orderLoop ne cmp (decide (xs.length > ys.length)) h l r i n
        = some (refLexLess (fun a b => ne b a) (fun a b => cmp b a)
            (ys.drop i) (xs.drop i)) := by
  induction n with
  | zero =>
    intro i hi
    by_cases hlt : ys.length < xs.length
    · have h1 : i < xs.length := by omega
      rw [List.drop_eq_nil_of_le (by omega : ys.length ≤ i), List.drop_eq_getElem_cons h1]
      simp [orderLoop, refLexLess, hlt]
    · rw [List.drop_eq_nil_of_le (by omega : xs.length ≤ i), refLexLess_nil_right]
      simp [orderLoop, hlt]
  | succ n ih =>
    intro i hi
    have h1 : i < xs.length := by omega
    have h2 : i < ys.length := by omega
    rw [List.drop_eq_getElem_cons h1, List.drop_eq_getElem_cons h2]
    simp only [orderLoop, hl.index_some i h1, hr.index_some i h2, refLexLess]
    rw [ih (i + 1) (by omega)]
    cases ne xs[i] ys[i] <;> simp

theorem min_sizes (a b : Nat) : (if a < b then a else b) = min a b := by
  split <;> omega

/-- `operator<` computes the reference lexicographic order. -/
theorem opLt_spec (ne lt : T → T → Bool) (h : Heap T) (l r : KVector) (xs ys : List T)
    (hl : Holds h l xs) (hr : Holds h r ys) :
    opLt ne lt h l r = some (refLexLess ne lt xs ys) := by
  simp only [opLt, hl.1, hr.1, min_sizes]
  rw [orderLoop_lt_spec ne lt h l r xs ys hl hr _ 0 (by omega)]
  simp

/-- `operator>` computes the reference order with the operands exchanged and
the element operators read from right to left. -/
theorem opGt_spec (ne gt : T → T → Bool) (h : Heap T) (l r : KVector) (xs ys : List T)
    (hl : Holds h l xs) (hr : Holds h r ys) :
    opGt ne gt h l r
      = some (refLexLess (fun a b => ne b a) (fun a b => gt b a) ys xs) := by
  simp only [opGt, hl.1, hr.1, min_sizes]
  rw [orderLoop_gt_spec ne gt h l r xs ys hl hr _ 0 (by omega)]
  simp

/-! ### The reference order over a linearly ordered element type -/

theorem refLexLess_flip [LinearOrder T] (xs ys : List T) :
    refLexLess (fun a b : T => neOf b a) (fun a b : T => gtOf b a) xs ys
      = refLexLess neOf ltOf xs ys := by
  induction xs generalizing ys with
  | nil => cases ys <;> rfl
  | cons x xs ih =>
    cases ys with
    | nil => rfl
    | cons y ys =>
      simp only [refLexLess, ih ys]
      have h1 : neOf y x = neOf x y := by simp [neOf, ne_comm]
      have h2 : gtOf y x = ltOf x y := rfl
      rw [h1, h2]

theorem specEq_neOf [LinearOrder T] (xs ys : List T) :
    specEq neOf xs ys = decide (xs = ys) := by
  induction xs generalizing ys with
  | nil => cases ys <;> simp [specEq]
  | cons x xs ih =>
    cases ys with
    | nil => simp [specEq]
    | cons y ys => simp [specEq, ih ys, neOf]

theorem lex_irrefl [LinearOrder T] (xs : List T) : refLexLess neOf ltOf xs xs = false := by
  induction xs with
  | nil => rfl
  | cons x xs ih => simp [refLexLess, neOf, ih]

/-- Exactly one of `xs < ys`, `xs = ys`, `ys < xs` holds for the reference order. -/
theorem lex_trichotomy [LinearOrder T] (xs ys : List T) :
    (refLexLess neOf ltOf xs ys = true ∧ xs ≠ ys ∧ refLexLess neOf ltOf ys xs = false) ∨
    (refLexLess neOf ltOf xs ys = false ∧ xs = ys ∧ refLexLess neOf ltOf ys xs = false) ∨
    (refLexLess neOf ltOf xs ys = false ∧ xs ≠ ys ∧ refLexLess neOf ltOf ys xs = true) := by
  induction xs generalizing ys with
  | nil => cases ys <;> simp [refLexLess]
  | cons x xs ih =>
    cases ys with
    | nil => simp [refLexLess]
    | cons y ys =>
      rcases lt_trichotomy x y with hxy | hxy | hxy
      · left
        have h1 : x ≠ y := ne_of_lt hxy
        have h2 : ¬ y < x := not_lt_of_lt hxy
        simp [refLexLess, neOf, ltOf, h1, h1.symm, hxy, h2]
      · subst hxy
        simpa [refLexLess, neOf] using ih ys
      · right; right
        have h1 : x ≠ y := ne_of_gt hxy
        have h2 : ¬ x < y := not_lt_of_lt hxy
        simp [refLexLess, neOf, ltOf, h1, h1.symm, hxy, h2]

theorem lex_asymm [LinearOrder T] (xs ys : List T) (hxy : refLexLess neOf ltOf xs ys = true) :
    refLexLess neOf ltOf ys xs = false := by
  rcases lex_trichotomy xs ys with h | h | h
  · exact h.2.2
  · exact h.2.2
  · rw [h.1] at hxy; cases hxy

theorem lex_trans [LinearOrder T] (xs ys zs : List T)
    (hxy : refLexLess neOf ltOf xs ys = true) (hyz : refLexLess neOf ltOf ys zs = true) :
    refLexLess neOf ltOf xs zs = true := by
  induction xs generalizing ys zs with
  | nil =>
    cases ys with
    | nil => simp [refLexLess] at hxy
    | cons y ys =>
      cases zs with
      | nil => simp [refLexLess] at hyz
      | cons z zs => rfl
  | cons x xs ih =>
    cases ys with
    | nil => simp [refLexLess] at hxy
    | cons y ys =>
      cases zs with
      | nil => simp [refLexLess] at hyz
      | cons z zs =>
        simp only [refLexLess, neOf, ltOf] at hxy hyz ⊢
        by_cases h1 : x = y
        · subst h1
          by_cases h2 : x = z
          · subst h2
            simp only [ne_eq, not_true_eq_false, decide_False, Bool.false_eq_true,
              if_false] at hxy hyz ⊢
            exact ih ys zs hxy hyz
          · simp only [ne_eq, not_true_eq_false, decide_False, Bool.false_eq_true, if_false,
              h2, not_false_eq_true, decide_True, if_true] at hxy hyz ⊢
            exact hyz
        · simp only [ne_eq, h1, not_false_eq_true, decide_True, if_true,
            decide_eq_true_eq] at hxy
          by_cases h2 : y = z
          · subst h2
            simp [h1, hxy]
          · simp only [ne_eq, h2, not_false_eq_true, decide_True, if_true,
              decide_eq_true_eq] at hyz
            have h3 : x < z := lt_trans hxy hyz
            simp [ne_of_lt h3, h3]

/-- Two sequences are incomparable in the reference order only when equal. -/
theorem lex_incomparable [LinearOrder T] (xs ys : List T)
    (h1 : refLexLess neOf ltOf xs ys = false) (h2 : refLexLess neOf ltOf ys xs = false) :
    xs = ys := by
  rcases lex_trichotomy xs ys with h | h | h
  · rw [h.1] at h1; cases h1
  · exact h.2.1
  · rw [h.2.2] at h2; cases h2

/-- The first position where the elements differ decides the reference order. -/
theorem refLexLess_first_diff (ne lt : T → T → Bool) : ∀ (xs ys : List T) (k : Nat)
    (h1 : k < xs.length) (h2 : k < ys.length),
    (∀ j (hj : j < k), ne xs[j] ys[j] = false) → ne xs[k] ys[k] = true →
    refLexLess ne lt xs ys = lt xs[k] ys[k]
  | [], _, _, h1, _, _, _ => by simp at h1
  | _ :: _, [], _, _, h2, _, _ => by simp at h2
  | x :: xs, y :: ys, 0, _, _, _, hk => by
    simp only [List.getElem_cons_zero] at hk
    simp [refLexLess, hk]
  | x :: xs, y :: ys, k + 1, h1, h2, hsame, hk => by
    have h0 : ne x y = false := hsame 0 (by omega)
    simp only [refLexLess, h0, Bool.false_eq_true, if_false, List.getElem_cons_succ]
    exact refLexLess_first_diff ne lt xs ys k (by simpa using h1) (by simpa using h2)
      (fun j hj => hsame (j + 1) (by omega)) hk

/-- Without a differing position the shorter sequence is the smaller. -/
theorem refLexLess_no_diff (ne lt : T → T → Bool) : ∀ (xs ys : List T),
    (∀ j (h1 : j < xs.length) (h2 : j < ys.length), ne xs[j] ys[j] = false) →
    refLexLess ne lt xs ys = decide (xs.length < ys.length)
  | [], [], _ => by simp [refLexLess]
  | [], _ :: _, _ => by simp [refLexLess]
  | _ :: _, [], _ => by simp [refLexLess]
  | x :: xs, y :: ys, hsame => by
    have h0 : ne x y = false := hsame 0 (by simp) (by simp)
    simp only [refLexLess, h0, Bool.false_eq_true, if_false, List.length_cons,
      Nat.add_lt_add_iff_right]
    exact refLexLess_no_diff ne lt xs ys
      (fun j h1 h2 => hsame (j + 1) (by simpa using h1) (by simpa using h2))

/-! ### Equality over an element equality that is an equivalence -/

theorem specEq_refl (ne : T → T → Bool) (hrefl : ∀ a, ne a a = false) (xs : List T) :
    specEq ne xs xs = true :=
  (specEq_iff ne xs xs).mpr ⟨rfl, fun i _ _ => hrefl xs[i]⟩

theorem specEq_symm (ne : T → T → Bool) (hsymm : ∀ a b, ne a b = false → ne b a = false)
    (xs ys : List T) : specEq ne xs ys = specEq ne ys xs := by
  have key : ∀ (us vs : List T), specEq ne us vs = true → specEq ne vs us = true := by
    intro us vs e
    obtain ⟨hl, he⟩ := (specEq_iff ne us vs).mp e
    exact (specEq_iff ne vs us).mpr ⟨hl.symm, fun i hi hj => hsymm _ _ (he i hj hi)⟩
  cases h1 : specEq ne xs ys with
  | true => exact (key xs ys h1).symm
  | false =>
    cases h2 : specEq ne ys xs with
    | false => rfl
    | true => rw [key ys xs h2] at h1; cases h1

theorem specEq_trans (ne : T → T → Bool)
    (htrans : ∀ a b c, ne a b = false → ne b c = false → ne a c = false) (xs ys zs : List T)
    (h1 : specEq ne xs ys = true) (h2 : specEq ne ys zs = true) : specEq ne xs zs = true := by
  obtain ⟨l1, e1⟩ := (specEq_iff ne xs ys).mp h1
  obtain ⟨l2, e2⟩ := (specEq_iff ne ys zs).mp h2
  refine (specEq_iff ne xs zs).mpr ⟨l1.trans l2, fun i hi hj => ?_⟩
  exact htrans _ _ _ (e1 i hi (by omega)) (e2 i (by omega) hj)

theorem sampleA_holds : Holds sampleHeap sampleA [1, 2] := ⟨rfl, by decide⟩

theorem sampleB_holds : Holds sampleHeap sampleB [1, 2, 3] := ⟨rfl, by decide⟩

theorem sampleC_holds : Holds sampleHeap sampleC [1, 3] := ⟨rfl, by decide⟩

end Relational

/-! ## Growth failure and the accesses of `EraseAt` -/

section Traces

variable {T : Type}

theorem fullVec_rep : Rep fullHeap fullVec (List.range 20) :=
  ⟨List.range 20, by decide, by decide, by decide, by decide⟩

theorem Heap.write_read_isSome (h h1 : Heap T) (p q : Ptr) (x : T)
    (e : h.write p x = some h1) : (h1.read q).isSome = (h.read q).isSome := by
  unfold Heap.write at e
  cases hb : h.block p.blk with
  | none => rw [hb] at e; cases e
  | some buf =>
    rw [hb] at e
    simp only at e
    split at e
    · cases e
      have hlt := Heap.block_lt h p.blk buf hb
      by_cases hq : q.blk = p.blk
      · simp only [Heap.read, hq, Heap.block_set_self h p.blk _ hlt, hb]
        by_cases hlen : q.off < buf.length
        · rw [List.getElem?_eq_getElem (by simpa using hlen), List.getElem?_eq_getElem hlen]
          rfl
        · rw [List.getElem?_eq_none (by simpa using hlen), List.getElem?_eq_none (by omega)]
      · simp only [Heap.read, Heap.block_set_ne h p.blk q.blk _ (Ne.symm hq)]
    · cases e

/-- When `shiftLeft` is defined, every address it reads and every address it
writes is a slot of a live block. -/
theorem shiftLeft_accesses_live (n : Nat) : ∀ (h h1 : Heap T) (s d : Ptr),
    shiftLeft h s d n = some h1 →
    (∀ p ∈ shiftLeftReads s n, (h.read p).isSome) ∧
      (∀ q ∈ shiftLeftWrites d n, (h.read q).isSome) := by
  induction n with
  | zero => intro h h1 s d _; simp [shiftLeftReads, shiftLeftWrites]
  | succ n ih =>
    intro h h1 s d e
    simp only [shiftLeft] at e
    cases hr : h.read s with
    | none => simp [hr] at e
    | some x =>
      cases hw : h.write d x with
      | none => simp [hr, hw] at e
      | some h2 =>
        simp only [hr, hw] at e
        obtain ⟨i1, i2⟩ := ih h2 h1 (s.add 1) (d.add 1) e
        have hd : (h.read d).isSome := by
          unfold Heap.write at hw
          cases hb : h.block d.blk with
          | none => rw [hb] at hw; cases hw
          | some buf =>
            rw [hb] at hw
            simp only at hw
            split at hw
            · rename_i hlt
              simp only [Heap.read, hb]
              rw [List.getElem?_eq_getElem hlt]
              rfl
            · cases hw
        constructor
        · intro p hp
          simp only [shiftLeftReads, List.mem_cons] at hp
          rcases hp with hp | hp
          · rw [hp, hr]; rfl
          · rw [← Heap.write_read_isSome h h2 d p x hw]; exact i1 p hp
        · intro q hq
          simp only [shiftLeftWrites, List.mem_cons] at hq
          rcases hq with hq | hq
          · rw [hq]; exact hd
          · rw [← Heap.write_read_isSome h h2 d q x hw]; exact i2 q hq

theorem mem_shiftLeftReads (n : Nat) : ∀ (s p : Ptr),
    p ∈ shiftLeftReads s n ↔ p.blk = s.blk ∧ s.off ≤ p.off ∧ p.off < s.off + n := by
  induction n with
  | zero => intro s p; simp [shiftLeftReads]
  | succ n ih =>
    intro s p
    simp only [shiftLeftReads, List.mem_cons, ih, Ptr.add]
    constructor
    · rintro (hp | ⟨h1, h2, h3⟩)
      · subst hp; exact ⟨rfl, Nat.le_refl _, by omega⟩
      · exact ⟨h1, by omega, by omega⟩
    · rintro ⟨h1, h2, h3⟩
      by_cases hp : p.off = s.off
      · left
        cases p; cases s
        simp_all
      · right; exact ⟨h1, by omega, by omega⟩

theorem mem_shiftLeftWrites (n : Nat) : ∀ (d q : Ptr),
    q ∈ shiftLeftWrites d n ↔ q.blk = d.blk ∧ d.off ≤ q.off ∧ q.off < d.off + n := by
  induction n with
  | zero => intro d q; simp [shiftLeftWrites]
  | succ n ih =>
    intro d q
    simp only [shiftLeftWrites, List.mem_cons, ih, Ptr.add]
    constructor
    · rintro (hq | ⟨h1, h2, h3⟩)
      · subst hq; exact ⟨rfl, Nat.le_refl _, by omega⟩
      · exact ⟨h1, by omega, by omega⟩
    · rintro ⟨h1, h2, h3⟩
      by_cases hq : q.off = d.off
      · left
        cases q; cases d
        simp_all
      · right; exact ⟨h1, by omega, by omega⟩

/-- After a growth whose allocation threw, the container claims more capacity
than its buffer has, does not grow on the next append and stores past the end
of the buffer. -/
theorem PushBack_after_failed_growth [Inhabited T] (h : Heap T) (v : KVector) (s : List T)
    (arg : Arg T) (n : Nat) (hr : Rep h v s) (hfull : v._alloc_size = v._sz)
    (hn : v._sz < n) :
    KVector.PushBack h { v with _alloc_size := n } arg = none := by
  obtain ⟨b, buf, ha, hb, hl, hle, ht⟩ := hr.unfold
  have hne : ¬ n = v._sz := by omega
  have hw : ∀ x, h.write ⟨b, 0 + v._sz⟩ x = none := by
    intro x
    simp only [Heap.write, hb]
    rw [if_neg (by simp; omega)]
  simp only [KVector.PushBack, KVector.EmplaceBack, hne, if_false, ha, Ptr.add]
  cases arg.eval h with
  | none => rfl
  | some x => simp only [hw]

end Traces

/-! ## Claims -/

section Claims

variable {T : Type}

/-- Appending objects that live outside the container: starting from a freshly
constructed default container and calling PushBack once per element of `xs`,
in order, succeeds on every free store `h`; afterwards `Size()` is the length
of `xs` and `operator[](i)` is `xs[i]` for every `i < length xs`.  The capacity
holds them all and follows the growth rule: it is still 20 after 20 appends
and 31 after the 21st and after the 25th. -/
theorem pushAll_default_spec [Inhabited T] (h : Heap T) (xs : List T) :
    ∃ h1 v1, pushAll (KVector.mk0 h) xs = some (h1, v1) ∧ v1.Size = xs.length ∧
      (∀ i (hi : i < xs.length), v1.index h1 i = some xs[i]) ∧
      xs.length ≤ v1._alloc_size ∧ v1._alloc_size = capAfter xs.length ∧
      capAfter 20 = 20 ∧ capAfter 21 = 31 ∧ capAfter 25 = 31 := by
  obtain ⟨h1, v1, e, r, c⟩ :=
    pushAll_spec xs (KVector.mk0 h).1 (KVector.mk0 h).2 [] (mk0_rep h) rfl
  simp only [List.nil_append] at r c
  refine ⟨h1, v1, e, ?_, ?_, ?_, c, by decide, by decide, by decide⟩
  · simpa [KVector.Size] using r.length_eq.symm
  · intro i hi
    rw [r.index_eq i hi]
    exact List.getElem?_eq_getElem hi
  · obtain ⟨_, _, _, _, _, hle, _⟩ := r.unfold
    have := r.length_eq
    omega

/-- C1 (the code at the failing input): twenty appends fill the 20 slots of a
freshly constructed default container; the 21st append `PushBack(v[0])` passes
a reference to slot 0, `EmplaceBack` grows first, which releases the buffer
that slot is in, and only then evaluates `T(args...)` through the reference:
the call is undefined instead of appending the value `0`. -/
theorem C1_append_own_element_when_full_undefined :
    ∃ h v p, pushAll (KVector.mk0 ([] : Heap Nat)) (List.range 20) = some (h, v) ∧
      v._sz = 20 ∧ v._alloc_size = 20 ∧ v.refAt 0 = some p ∧ v.index h 0 = some 0 ∧
      v.PushBack h (Arg.ref p) = none := by
  refine ⟨_, _, _, rfl, rfl, rfl, rfl, ?_⟩
  decide

/-- C2 (the code at the failing input): twenty appends to a default-constructed
container fill its 20 slots; `InsertAt(0, 99)` then grows the buffer, which
releases the block `tempiter` points into, and shifts and stores through that
pointer: the call is undefined instead of yielding `[99, 0, 1, ..., 19]`. -/
theorem C2_insert_when_full_undefined :
    ∃ h v, pushAll (KVector.mk0 ([] : Heap Nat)) (List.range 20) = some (h, v) ∧
      v._sz = 20 ∧ v._alloc_size = 20 ∧ v.InsertAt h 0 (Arg.val 99) = none := by
  refine ⟨_, _, rfl, ?_⟩
  decide

/-- C3 (the code at the failing input): on a container whose 20 slots are all
live, `EraseAt(1)` shifts `_sz - pos = 19` slots starting at slot 2, so it
reads slot 20, one past the end of the buffer: the call is undefined instead
of yielding the 19 remaining values. -/
theorem C3_erase_when_full_undefined :
    ∃ h v, pushAll (KVector.mk0 ([] : Heap Nat)) (List.range 20) = some (h, v) ∧
      v._sz = 20 ∧ v._alloc_size = 20 ∧ v.EraseAt h 1 = none := by
  refine ⟨_, _, rfl, ?_⟩
  decide

/-- C4 (the code at the failing input): after nineteen appends, `InsertAt(0, 99)`
succeeds and fills the last slot; the following `EraseAt(0)` reads one slot
past the end of the buffer and is undefined, so the round trip does not give
the original sequence back. -/
theorem C4_insert_erase_when_nearly_full_undefined :
    ∃ h v h1 v1, pushAll (KVector.mk0 ([] : Heap Nat)) (List.range 19) = some (h, v) ∧
      v.InsertAt h 0 (Arg.val 99) = some (h1, v1, 0) ∧ v1._sz = 20 ∧
      v1.EraseAt h1 0 = none := by
  refine ⟨_, _, _, _, rfl, rfl, ?_⟩
  decide

/-- C5 (the code on every count): `KVector(n)` assigns `n + n/2 + 1` to `_sz`
and leaves `_alloc_size` at 20, so `Size()` is `n + n/2 + 1` and never `n`;
the `n` slots its loop assigns hold the default value. -/
theorem C5_sized_constructor_size [Inhabited T] (h : Heap T) (n : Nat) :
    ∃ h1 v, KVector.mkSized h n = some (h1, v) ∧ v.Size = n + n / 2 + 1 ∧ v.Size ≠ n ∧
      v._alloc_size = 20 ∧ ∀ i, i < n → v.index h1 i = some default := by
  obtain ⟨h1, buf, e, hb, hl, hd⟩ := mkSized_spec h n
  refine ⟨h1, _, e, rfl, ?_, rfl, ?_⟩
  · simp only [KVector.Size]; omega
  · intro i hi
    simp only [KVector.index, Ptr.add, Nat.zero_add]
    rw [Heap.read_of_block h1 ⟨h.length, i⟩ buf hb]
    exact hd i (by omega)

/-- C6 (the code at the failing inputs): for every count of at least 14 the
sized constructor returns a container with `_alloc_size < _sz`, because it
stores `n + n/2 + 1` in `_sz` while `_alloc_size` stays 20. -/
theorem C6_sized_constructor_breaks_invariant [Inhabited T] (h : Heap T) (n : Nat) :
    ∃ h1 v, KVector.mkSized h (n + 14) = some (h1, v) ∧ v._alloc_size < v._sz := by
  obtain ⟨h1, buf, e, _⟩ := mkSized_spec h (n + 14)
  refine ⟨h1, _, e, ?_⟩
  simp only []
  omega

/-- C7: move construction gives the destination the source's length, capacity
and buffer pointer, hence the same element at every index in any free store,
and leaves the source with length 0, capacity 0 and the null pointer. -/
theorem C7_move_construct (r : KVector) :
    (KVector.mkMove r).1._sz = r._sz ∧ (KVector.mkMove r).1._alloc_size = r._alloc_size ∧
      (KVector.mkMove r).1._array = r._array ∧
      (∀ (h : Heap T) (i : Nat), (KVector.mkMove r).1.index h i = r.index h i) ∧
      (KVector.mkMove r).2 = ⟨0, 0, none⟩ :=
  ⟨rfl, rfl, rfl, fun _ _ => rfl, rfl⟩

/-- C8 (counterexample): move-assigning a three-element container to a freshly
constructed default container leaves the source with capacity 20 and the old
buffer of the target, not in the empty state. -/
theorem C8_move_assign_source_not_empty :
    ∃ h1 a h2 b, KVector.mk0 ([] : Heap Nat) = (h1, a) ∧
      KVector.mkList h1 [1, 2, 3] = some (h2, b) ∧
      (a.assignMove b).2 = ⟨20, 0, some ⟨0, 0⟩⟩ ∧ (a.assignMove b).2 ≠ ⟨0, 0, none⟩ := by
  refine ⟨_, _, _, _, rfl, rfl, ?_⟩
  decide

/-- C8 (amended): move assignment exchanges the two containers: afterwards the
target has the source's length, capacity and buffer (hence its elements, in
any free store), and the source has the target's former length, capacity and
buffer. -/
theorem C8_move_assign_exchanges (a b : KVector) :
    (a.assignMove b).1 = b ∧ (a.assignMove b).2 = a ∧
      (∀ (h : Heap T) (i : Nat), (a.assignMove b).1.index h i = b.index h i) ∧
      (∀ (h : Heap T) (i : Nat), (a.assignMove b).2.index h i = a.index h i) :=
  ⟨rfl, rfl, fun _ _ => rfl, fun _ _ => rfl⟩

/-- Copy construction and independence where the mutation is defined: for a
source `r` with `_sz ≤ _alloc_size` whose live elements are all readable, the
copy constructor succeeds; the copy has the same length and capacity and the
same element at every index below the length; `r` keeps its elements; and
whatever PushBack, InsertAt, EraseAt or an element write on the copy produces,
for any argument, every live element of `r` still reads the same.  PushBack of
an outside object always succeeds on the copy, InsertAt of one and EraseAt
succeed at valid positions when the copy has a spare slot, and a write succeeds
at every index below the capacity. -/
theorem mkCopy_independent [Inhabited T] (h : Heap T) (r : KVector)
    (hcap : r._sz ≤ r._alloc_size) (hlive : ∀ i, i < r._sz → (r.index h i).isSome) :
    ∃ h1 c, KVector.mkCopy h r = some (h1, c) ∧
      c._sz = r._sz ∧ c._alloc_size = r._alloc_size ∧
      (∀ i, i < r._sz → c.index h1 i = r.index h i) ∧
      (∀ i, i < r._sz → r.index h1 i = r.index h i) ∧
      (∀ arg h2 c2, c.PushBack h1 arg = some (h2, c2) →
        ∀ i, i < r._sz → r.index h2 i = r.index h i) ∧
      (∀ pos arg h2 c2 k, c.InsertAt h1 pos arg = some (h2, c2, k) →
        ∀ i, i < r._sz → r.index h2 i = r.index h i) ∧
      (∀ pos h2 c2 k, c.EraseAt h1 pos = some (h2, c2, k) →
        ∀ i, i < r._sz → r.index h2 i = r.index h i) ∧
      (∀ idx x h2, c.setIndex h1 idx x = some h2 →
        ∀ i, i < r._sz → r.index h2 i = r.index h i) ∧
      (∀ x, (c.PushBack h1 (Arg.val x)).isSome) ∧
      (∀ pos x, pos ≤ r._sz → r._sz < r._alloc_size →
        (c.InsertAt h1 pos (Arg.val x)).isSome) ∧
      (∀ pos, pos < r._sz → r._sz < r._alloc_size → (c.EraseAt h1 pos).isSome) ∧
      (∀ idx x, idx < r._alloc_size → (c.setIndex h1 idx x).isSome) := by
  obtain ⟨h1, c, e, ca, cs, cc, ⟨s, hrep⟩, hel, hfr⟩ := mkCopy_frame h r hcap hlive
  refine ⟨h1, c, e, cs, cc, hel, hfr h1 (Frame.refl _ _), ?_, ?_, ?_, ?_, ?_, ?_, ?_, ?_⟩
  · intro x h2 c2 ep
    exact hfr h2 (PushBack_frame h1 h2 c c2 x ep).1
  · intro pos x h2 c2 k ep
    exact hfr h2 (InsertAt_frame h1 h2 c c2 pos k x ep).1
  · intro pos h2 c2 k ep
    exact hfr h2 (EraseAt_frame h1 h2 c c2 pos k ep).1
  · intro idx x h2 ep
    exact hfr h2 (setIndex_frame h1 h2 c idx x ep)
  · intro x
    obtain ⟨h2, c2, ep, _⟩ := PushBack_spec h1 c s x hrep
    rw [ep]; rfl
  · intro pos x hp hroom
    obtain ⟨h2, c2, ep, _⟩ := InsertAt_spec h1 c s pos x hrep (by omega) (by omega)
    rw [ep]; rfl
  · intro pos hp hroom
    obtain ⟨h2, c2, ep, _⟩ := EraseAt_spec h1 c s pos hrep (by omega) (by omega)
    rw [ep]; rfl
  · intro idx x hidx
    obtain ⟨b, buf, ha, hb, hl, _, _⟩ := hrep.unfold
    have hw := Heap.write_of_block h1 ⟨b, 0 + idx⟩ x buf hb (by simp; omega)
    simp only [KVector.setIndex, ha, Ptr.add, hw]
    rfl

/-- The copy of the container built from `{1, 2, 3}`, an instance of
`mkCopy_independent`. -/
theorem mkCopy_independent_example :
    (3 ≤ 5 ∧ ∀ i, i < 3 →
      ((⟨5, 3, some ⟨0, 0⟩⟩ : KVector).index ([some [1, 2, 3, 0, 0]] : Heap Nat) i).isSome) ∧
    ∃ h1 c, KVector.mkCopy ([some [1, 2, 3, 0, 0]] : Heap Nat) ⟨5, 3, some ⟨0, 0⟩⟩
      = some (h1, c) ∧ c._sz = 3 ∧ c._alloc_size = 5 := by
  refine ⟨⟨by decide, by decide⟩, ?_⟩
  obtain ⟨h1, c, e, cs, cc, _⟩ := mkCopy_independent
    ([some [1, 2, 3, 0, 0]] : Heap Nat) ⟨5, 3, some ⟨0, 0⟩⟩ (by decide) (by decide)
  exact ⟨h1, c, e, cs, cc⟩

/-- The copy of a full container is full: `InsertAt` on the copy is undefined
for every position and argument, `EraseAt` for every valid position, and so is
`PushBack` of one of the copy's own elements. -/
theorem mkCopy_full_mutations [Inhabited T] (h : Heap T) (r : KVector) (s : List T)
    (hr : Rep h r s) (hfull : r._alloc_size = r._sz) :
    ∃ h1 c, KVector.mkCopy h r = some (h1, c) ∧ c._sz = r._sz ∧
      c._alloc_size = r._alloc_size ∧
      (∀ pos arg, c.InsertAt h1 pos arg = none) ∧
      (∀ pos, pos < r._sz → c.EraseAt h1 pos = none) ∧
      (∀ i p, c.refAt i = some p → c.PushBack h1 (Arg.ref p) = none) := by
  obtain ⟨_, _, _, _, _, hle, _⟩ := hr.unfold
  have hlive : ∀ i, i < r._sz → (r.index h i).isSome := by
    intro i hi
    rw [hr.index_eq i (by rw [hr.length_eq]; exact hi),
      List.getElem?_eq_getElem (by rw [hr.length_eq]; exact hi)]
    rfl
  obtain ⟨h1, c, e, ca, cs, cc, ⟨t, hrep⟩, _, _⟩ := mkCopy_frame h r hle hlive
  have hcf : c._alloc_size = c._sz := by omega
  refine ⟨h1, c, e, cs, cc, ?_, ?_, ?_⟩
  · intro pos arg
    exact InsertAt_full h1 c t pos arg hrep hcf
  · intro pos hp
    exact EraseAt_full h1 c t pos hrep hcf (by omega)
  · intro i p hp
    exact PushBack_own_element_full h1 c t i p hrep hcf hp

/-- Assignment where the source satisfies the invariant: when the target `a`
can be destroyed and the source `b` has `_sz ≤ _alloc_size` with all live
elements readable, copy assignment succeeds and leaves `a` with the length of `b` and the element of `b` at every index
below it, releases the old buffer of `a`, and leaves the elements of `b` as
they were when `b` has a buffer of its own; list assignment succeeds and leaves
`a` with exactly the listed values in order, `Size()` being their number, the
old buffer of `a` released. -/
theorem assign_spec [Inhabited T] (h : Heap T) (a b : KVector) (xs : List T)
    (ha : a.destructible h = true) (hcap : b._sz ≤ b._alloc_size)
    (hlive : ∀ i, i < b._sz → (b.index h i).isSome) :
    (∃ h1 a1, a.assignCopy h b = some (h1, a1) ∧ a1.Size = b.Size ∧
      (∀ i, i < b.Size → a1.index h1 i = b.index h i) ∧
      ((∀ p q, a._array = some p → b._array = some q → p.blk ≠ q.blk) →
        ∀ i, i < b.Size → b.index h1 i = b.index h i) ∧
      (∀ p, a._array = some p → h1.block p.blk = none)) ∧
    (∃ h1 a1, a.assignList h xs = some (h1, a1) ∧ a1.Size = xs.length ∧
      (∀ i (hi : i < xs.length), a1.index h1 i = some xs[i]) ∧
      (∀ p, a._array = some p → h1.block p.blk = none)) := by
  constructor
  · obtain ⟨dbuf, e, hl, hd⟩ := mkCopy_spec h b hcap hlive
    obtain ⟨h2, ed, hnew, hold, hrest⟩ := destroy_after_append h a dbuf ha
    refine ⟨h2, ⟨b._alloc_size, b._sz, some ⟨h.length, 0⟩⟩, ?_, rfl, ?_, ?_, hold⟩
    · simp only [KVector.assignCopy, e, KVector.swap]
      have : (⟨a._alloc_size, a._sz, a._array⟩ : KVector) = a := rfl
      rw [this, ed]
    · intro i hi
      simp only [KVector.index, Ptr.add, Nat.zero_add]
      rw [Heap.read_of_block h2 ⟨h.length, i⟩ dbuf hnew]
      exact hd i hi
    · intro hne i hi
      apply index_congr
      intro q hq
      exact hrest q.blk (live_block_lt h b i q (hlive i hi) hq)
        (fun p hp => Ne.symm (hne p q hp hq))
  · obtain ⟨buf, e, hl, hd⟩ := mkList_spec h xs
    obtain ⟨h2, ed, hnew, hold, hrest⟩ := destroy_after_append h a buf ha
    refine ⟨h2, ⟨xs.length + xs.length / 2 + 1, xs.length, some ⟨h.length, 0⟩⟩, ?_, rfl, ?_,
      hold⟩
    · simp only [KVector.assignList, e, KVector.swap]
      have : (⟨a._alloc_size, a._sz, a._array⟩ : KVector) = a := rfl
      rw [this, ed]
    · intro i hi
      simp only [KVector.index, Ptr.add, Nat.zero_add]
      rw [Heap.read_of_block h2 ⟨h.length, i⟩ buf hnew, hd i hi]
      exact List.getElem?_eq_getElem hi

/-- Copy assignment to a default-constructed target from the source built from
`{1, 2, 3}`, an instance of `assign_spec`. -/
theorem assign_spec_example :
    ((⟨20, 0, some ⟨1, 0⟩⟩ : KVector).destructible
        ([some [1, 2, 3, 0, 0], some (List.replicate 20 0)] : Heap Nat) = true ∧
      3 ≤ 5 ∧ ∀ i, i < 3 → ((⟨5, 3, some ⟨0, 0⟩⟩ : KVector).index
        ([some [1, 2, 3, 0, 0], some (List.replicate 20 0)] : Heap Nat) i).isSome) ∧
    ∃ h1 a1, (⟨20, 0, some ⟨1, 0⟩⟩ : KVector).assignCopy
        ([some [1, 2, 3, 0, 0], some (List.replicate 20 0)] : Heap Nat) ⟨5, 3, some ⟨0, 0⟩⟩
      = some (h1, a1) ∧ a1.Size = 3 := by
  refine ⟨⟨by decide, by decide, by decide⟩, ?_⟩
  obtain ⟨⟨h1, a1, e, hs, _⟩, _⟩ := assign_spec
    ([some [1, 2, 3, 0, 0], some (List.replicate 20 0)] : Heap Nat) ⟨20, 0, some ⟨1, 0⟩⟩
    ⟨5, 3, some ⟨0, 0⟩⟩ [7, 8] (by decide) (by decide) (by decide)
  exact ⟨h1, a1, e, hs⟩

/-- C10 (the code at the failing input): `KVector<int> a; KVector<int> b(14);
a = b;`.  The sized constructor leaves `b` with length 22 and capacity 20 over
a 22-slot buffer; the temporary that `operator=` copy-constructs from `b`
allocates 20 slots and its loop copies 22 elements, so the store to slot 20
runs past the end of the fresh buffer: the copy constructor and the assignment
are undefined, and `a` does not receive the contents of `b`. -/
theorem C10_assign_from_sized_source_undefined :
    ∃ h1 a h2 b buf, KVector.mk0 ([] : Heap Nat) = (h1, a) ∧
      KVector.mkSized h1 14 = some (h2, b) ∧ a.destructible h2 = true ∧
      b._sz = 22 ∧ b._alloc_size = 20 ∧ b.slots h2 = some buf ∧ buf.length = 22 ∧
      (∀ i, i < 22 → (b.index h2 i).isSome) ∧
      KVector.mkCopy h2 b = none ∧ a.assignCopy h2 b = none := by
  refine ⟨_, _, _, _, _, rfl, rfl, by decide, rfl, rfl, rfl, rfl, by decide, ?_, ?_⟩
  · decide
  · decide

/-- C11: for every initializer sequence the initializer-list constructor
succeeds on every free store; the container has `Size()` equal to the number
of items, `operator[](i)` returns item `i` for every index below it, the
capacity is exactly `n + n/2 + 1`, and the buffer has that many slots. -/
theorem C11_list_construct [Inhabited T] (h : Heap T) (lst : List T) :
    ∃ h1 v, KVector.mkList h lst = some (h1, v) ∧ v.Size = lst.length ∧
      (∀ i (hi : i < lst.length), v.index h1 i = some lst[i]) ∧
      v._alloc_size = lst.length + lst.length / 2 + 1 ∧
      ∃ buf, v.slots h1 = some buf ∧ buf.length = v._alloc_size := by
  obtain ⟨buf, e, hl, hh⟩ := mkList_holds h lst
  refine ⟨_, _, e, rfl, fun i hi => hh.index_some i hi, rfl, buf, ?_, hl⟩
  simp [KVector.slots, Heap.block_append_self]

/-- C12: for containers `l` and `r` that hold the sequences `xs` and `ys`,
`operator==` returns a value; it is true exactly when the two lengths are equal
and at every index the elements do not compare unequal; `operator!=` returns
the negation; and any other pair of containers holding the same two sequences,
on any free store and with any capacities, gives the same result. -/
theorem C12_equality_operator (ne : T → T → Bool) (h : Heap T) (l r : KVector)
    (xs ys : List T) (hl : Holds h l xs) (hr : Holds h r ys) :
    ∃ b, opEq ne h l r = some b ∧ opNe ne h l r = some (!b) ∧
      (b = true ↔ l.Size = r.Size ∧
        ∀ i (hi : i < xs.length) (hj : i < ys.length), ne xs[i] ys[i] = false) ∧
      (∀ (h1 : Heap T) (l1 r1 : KVector), Holds h1 l1 xs → Holds h1 r1 ys →
        opEq ne h1 l1 r1 = some b) := by
  refine ⟨specEq ne xs ys, opEq_spec ne h l r xs ys hl hr, ?_, ?_, ?_⟩
  · simp [opNe, opEq_spec ne h l r xs ys hl hr]
  · rw [specEq_iff, KVector.Size, KVector.Size, hl.1, hr.1]
  · intro h1 l1 r1 hl1 hr1
    exact opEq_spec ne h1 l1 r1 xs ys hl1 hr1

/-- C12 (witness): the containers built from `{1, 2}` and `{1, 2, 3}` are
found unequal. -/
theorem C12_equality_operator_witness :
    (Holds sampleHeap sampleA [1, 2] ∧ Holds sampleHeap sampleB [1, 2, 3]) ∧
    opEq neOf sampleHeap sampleA sampleB = some false := by
  refine ⟨⟨sampleA_holds, sampleB_holds⟩, ?_⟩
  obtain ⟨b, e, _, hb, _⟩ := C12_equality_operator neOf sampleHeap sampleA sampleB
    [1, 2] [1, 2, 3] sampleA_holds sampleB_holds
  cases b with
  | false => exact e
  | true => exact absurd (hb.mp rfl).1 (by decide)

/-- C13: when the element equality `eq` is reflexive, symmetric and transitive
and `!=` is its negation, `operator==` on containers that hold sequences is
reflexive, symmetric and transitive, and two containers built one after the
other from the same initializer sequence compare equal. -/
theorem C13_equality_is_equivalence [Inhabited T] (eq ne : T → T → Bool)
    (hrefl : ∀ a, eq a a = true) (hsymm : ∀ a b, eq a b = true → eq b a = true)
    (htrans : ∀ a b c, eq a b = true → eq b c = true → eq a c = true)
    (hne : ∀ a b, ne a b = !eq a b)
    (h : Heap T) (a b c : KVector) (xs ys zs : List T)
    (ha : Holds h a xs) (hb : Holds h b ys) (hc : Holds h c zs) :
    opEq ne h a a = some true ∧
    opEq ne h a b = opEq ne h b a ∧
    (opEq ne h a b = some true → opEq ne h b c = some true → opEq ne h a c = some true) ∧
    (∀ (h0 : Heap T) (lst : List T), ∃ h1 u h2 w, KVector.mkList h0 lst = some (h1, u) ∧
      KVector.mkList h1 lst = some (h2, w) ∧ opEq ne h2 u w = some true) := by
  have nrefl : ∀ x, ne x x = false := fun x => by rw [hne, hrefl]; rfl
  have nsymm : ∀ x y, ne x y = false → ne y x = false := by
    intro x y e
    rw [hne] at e ⊢
    simp only [Bool.not_eq_false'] at e ⊢
    exact hsymm x y e
  have ntrans : ∀ x y z, ne x y = false → ne y z = false → ne x z = false := by
    intro x y z e1 e2
    rw [hne] at e1 e2 ⊢
    simp only [Bool.not_eq_false'] at e1 e2 ⊢
    exact htrans x y z e1 e2
  refine ⟨?_, ?_, ?_, ?_⟩
  · rw [opEq_spec ne h a a xs xs ha ha, specEq_refl ne nrefl]
  · rw [opEq_spec ne h a b xs ys ha hb, opEq_spec ne h b a ys xs hb ha,
      specEq_symm ne nsymm]
  · intro e1 e2
    rw [opEq_spec ne h a b xs ys ha hb] at e1
    rw [opEq_spec ne h b c ys zs hb hc] at e2
    rw [opEq_spec ne h a c xs zs ha hc,
      specEq_trans ne ntrans xs ys zs (Option.some.inj e1) (Option.some.inj e2)]
  · intro h0 lst
    obtain ⟨buf1, e1, _, hu⟩ := mkList_holds h0 lst
    obtain ⟨buf2, e2, _, hw⟩ := mkList_holds (h0 ++ [some buf1]) lst
    refine ⟨_, _, _, _, e1, e2, ?_⟩
    rw [opEq_spec ne _ _ _ lst lst (hu.append (some buf2)) hw, specEq_refl ne nrefl]

/-- C13 (witness): on natural numbers with the usual equality, the container
built from `{1, 2}` equals itself. -/
theorem C13_equality_is_equivalence_witness :
    (Holds sampleHeap sampleA [1, 2] ∧ Holds sampleHeap sampleB [1, 2, 3] ∧
      Holds sampleHeap sampleC [1, 3]) ∧
    opEq (fun a b : Nat => !decide (a = b)) sampleHeap sampleA sampleA = some true :=
  ⟨⟨sampleA_holds, sampleB_holds, sampleC_holds⟩,
    (C13_equality_is_equivalence (fun a b : Nat => decide (a = b))
      (fun a b : Nat => !decide (a = b)) (fun a => by simp)
      (fun a b e => by simp at e ⊢; exact e.symm)
      (fun a b c e1 e2 => by simp at e1 e2 ⊢; exact e1.trans e2) (fun _ _ => rfl)
      sampleHeap sampleA sampleB sampleC [1, 2] [1, 2, 3] [1, 3]
      sampleA_holds sampleB_holds sampleC_holds).1⟩

/-- C14: over a linearly ordered element type, for containers `l` and `r` that
hold `xs` and `ys`, `operator<` returns the reference lexicographic order of
`xs` and `ys`: at the first index below both lengths where the elements differ
the result is the element-level `<` there, and without such an index the
result is true exactly when `l` is the shorter. -/
theorem C14_less_is_lexicographic [LinearOrder T] (h : Heap T) (l r : KVector)
    (xs ys : List T) (hl : Holds h l xs) (hr : Holds h r ys) :
    opLt neOf ltOf h l r = some (refLexLess neOf ltOf xs ys) ∧
    (∀ k (h1 : k < xs.length) (h2 : k < ys.length),
      (∀ j (hj : j < k), xs[j] = ys[j]) → xs[k] ≠ ys[k] →
      opLt neOf ltOf h l r = some (decide (xs[k] < ys[k]))) ∧
    ((∀ j (h1 : j < xs.length) (h2 : j < ys.length), xs[j] = ys[j]) →
      opLt neOf ltOf h l r = some (decide (l.Size < r.Size))) := by
  have e := opLt_spec neOf ltOf h l r xs ys hl hr
  refine ⟨e, ?_, ?_⟩
  · intro k h1 h2 hsame hk
    rw [e, refLexLess_first_diff neOf ltOf xs ys k h1 h2
      (fun j hj => by simp [neOf, hsame j hj]) (by simp [neOf, hk])]
    rfl
  · intro hsame
    rw [e, refLexLess_no_diff neOf ltOf xs ys (fun j h1 h2 => by simp [neOf, hsame j h1 h2]),
      KVector.Size, KVector.Size, hl.1, hr.1]

/-- C14 (witness): `[1, 2] < [1, 2, 3]` by length, and `[1, 2] < [1, 3]` by
the elements at index 1. -/
theorem C14_less_is_lexicographic_witness :
    (Holds sampleHeap sampleA [1, 2] ∧ Holds sampleHeap sampleB [1, 2, 3] ∧
      Holds sampleHeap sampleC [1, 3]) ∧
    opLt neOf ltOf sampleHeap sampleA sampleB = some true ∧
    opLt neOf ltOf sampleHeap sampleA sampleC = some true :=
  ⟨⟨sampleA_holds, sampleB_holds, sampleC_holds⟩,
    (C14_less_is_lexicographic sampleHeap sampleA sampleB [1, 2] [1, 2, 3]
      sampleA_holds sampleB_holds).1,
    (C14_less_is_lexicographic sampleHeap sampleA sampleC [1, 2] [1, 3]
      sampleA_holds sampleC_holds).1⟩

/-- C15: over a linearly ordered element type, `operator<` on containers that
hold sequences always returns a value and is a strict weak ordering: it is
irreflexive, asymmetric and transitive, and incomparability is transitive. -/
theorem C15_less_is_strict_weak_order [LinearOrder T] (h : Heap T) (a b c : KVector)
    (xs ys zs : List T) (ha : Holds h a xs) (hb : Holds h b ys) (hc : Holds h c zs) :
    (opLt neOf ltOf h a b).isSome ∧
    opLt neOf ltOf h a a = some false ∧
    ¬ (opLt neOf ltOf h a b = some true ∧ opLt neOf ltOf h b a = some true) ∧
    (opLt neOf ltOf h a b = some true → opLt neOf ltOf h b c = some true →
      opLt neOf ltOf h a c = some true) ∧
    (opLt neOf ltOf h a b = some false → opLt neOf ltOf h b a = some false →
      opLt neOf ltOf h b c = some false → opLt neOf ltOf h c b = some false →
      opLt neOf ltOf h a c = some false ∧ opLt neOf ltOf h c a = some false) := by
  have eab := opLt_spec neOf ltOf h a b xs ys ha hb
  have eba := opLt_spec neOf ltOf h b a ys xs hb ha
  have ebc := opLt_spec neOf ltOf h b c ys zs hb hc
  have ecb := opLt_spec neOf ltOf h c b zs ys hc hb
  have eac := opLt_spec neOf ltOf h a c xs zs ha hc
  have eca := opLt_spec neOf ltOf h c a zs xs hc ha
  have eaa := opLt_spec neOf ltOf h a a xs xs ha ha
  refine ⟨by rw [eab]; rfl, by rw [eaa, lex_irrefl], ?_, ?_, ?_⟩
  · rintro ⟨h1, h2⟩
    rw [eab] at h1
    rw [eba, lex_asymm xs ys (Option.some.inj h1)] at h2
    cases h2
  · intro h1 h2
    rw [eab] at h1
    rw [ebc] at h2
    rw [eac, lex_trans xs ys zs (Option.some.inj h1) (Option.some.inj h2)]
  · intro h1 h2 h3 h4
    rw [eab] at h1
    rw [eba] at h2
    rw [ebc] at h3
    rw [ecb] at h4
    have exy := lex_incomparable xs ys (Option.some.inj h1) (Option.some.inj h2)
    have eyz := lex_incomparable ys zs (Option.some.inj h3) (Option.some.inj h4)
    subst exy eyz
    rw [eac, lex_irrefl]
    exact ⟨rfl, eca.trans (by rw [lex_irrefl])⟩

/-- C15 (witness): the containers built from `{1, 2}`, `{1, 2, 3}` and
`{1, 3}` are ordered in that order, and the first is below the third. -/
theorem C15_less_is_strict_weak_order_witness :
    (Holds sampleHeap sampleA [1, 2] ∧ Holds sampleHeap sampleB [1, 2, 3] ∧
      Holds sampleHeap sampleC [1, 3]) ∧
    opLt neOf ltOf sampleHeap sampleA sampleC = some true :=
  ⟨⟨sampleA_holds, sampleB_holds, sampleC_holds⟩,
    (C15_less_is_strict_weak_order sampleHeap sampleA sampleB sampleC [1, 2] [1, 2, 3] [1, 3]
      sampleA_holds sampleB_holds sampleC_holds).2.2.2.1 (by decide) (by decide)⟩

/-- C17 (the code when the allocation throws): on a full container that owns
its buffer, the exception leaves `EmplaceBack` and `Emplace` with `_alloc_size`
already set to `length + length/2 + 1` while length and buffer are the old
ones; the container is not in its prior state, and the next `PushBack` does
not grow and stores past the end of the buffer. -/
theorem C17_failed_growth_changes_capacity [Inhabited T] (h : Heap T) (v : KVector)
    (s : List T) (x : Arg T) (hr : Rep h v s) (hfull : v._alloc_size = v._sz) :
    ∃ v1, v.EmplaceBackThrows = some v1 ∧ v.EmplaceThrows = some v1 ∧
      v1._alloc_size = v._sz + v._sz / 2 + 1 ∧ v1._alloc_size ≠ v._alloc_size ∧
      v1._sz = v._sz ∧ v1._array = v._array ∧ v1.PushBack h x = none := by
  obtain ⟨b, buf, ha, _⟩ := hr.unfold
  refine ⟨{ v with _alloc_size := v._sz + v._sz / 2 + 1 }, ?_, ?_, rfl, ?_, rfl, rfl, ?_⟩
  · simp [KVector.EmplaceBackThrows, KVector.inflateAllocThrows, hfull, ha, nullLt]
  · simp [KVector.EmplaceThrows, KVector.inflateAllocThrows, hfull, ha, nullLt]
  · simp only []; omega
  · exact PushBack_after_failed_growth h v s x _ hr hfull (by omega)

/-- C17 (witness): the container whose 20 slots are all live is left with
capacity 31 and a 20-slot buffer. -/
theorem C17_failed_growth_changes_capacity_witness :
    (Rep fullHeap fullVec (List.range 20) ∧ fullVec._alloc_size = fullVec._sz) ∧
    fullVec.EmplaceBackThrows = some ⟨31, 20, some ⟨0, 0⟩⟩ ∧
    KVector.PushBack fullHeap ⟨31, 20, some ⟨0, 0⟩⟩ (Arg.val 99) = none := by
  obtain ⟨v1, e, _, _, _, _, _, hp⟩ :=
    C17_failed_growth_changes_capacity fullHeap fullVec (List.range 20) (Arg.val 99)
      fullVec_rep rfl
  have e2 : fullVec.EmplaceBackThrows = some ⟨31, 20, some ⟨0, 0⟩⟩ := by decide
  rw [e2] at e
  cases e
  exact ⟨⟨fullVec_rep, rfl⟩, e2, hp⟩

/-- C18 (the code at the failing inputs): the sized constructor allocates
`n + n/2 + 1` slots while `_alloc_size` stays 20, and for every `n` other than
13 the next `PushBack` does not grow and stores past the end of that buffer;
on a moved-from container `inflateAlloc` sets `_alloc_size` to 1 without
allocating, and `PushBack` stores through the null pointer. -/
theorem C18_capacity_differs_from_buffer [Inhabited T] (h : Heap T) (n : Nat) (r : KVector)
    (x : Arg T) :
    (∃ h1 v buf, KVector.mkSized h n = some (h1, v) ∧ v.slots h1 = some buf ∧
      buf.length = n + n / 2 + 1 ∧ v._alloc_size = 20 ∧
      (n ≠ 13 → v.PushBack h1 x = none)) ∧
    KVector.inflateAlloc h (KVector.mkMove r).2 1 = some (h, ⟨1, 0, none⟩) ∧
    (KVector.mkMove r).2.PushBack h x = none := by
  refine ⟨?_, rfl, ?_⟩
  · obtain ⟨h1, buf, e, hb, hl, _⟩ := mkSized_spec h n
    refine ⟨h1, _, buf, e, by simp [KVector.slots, hb], hl, rfl, fun hn => ?_⟩
    have hne : ¬ 20 = n + n / 2 + 1 := by omega
    have hw : ∀ y : T, h1.write ⟨h.length, 0 + (n + n / 2 + 1)⟩ y = none := by
      intro y
      simp only [Heap.write, hb]
      rw [if_neg (by simp; omega)]
    simp only [KVector.PushBack, KVector.EmplaceBack, hne, if_false, Ptr.add]
    cases x.eval h1 with
    | none => rfl
    | some y => simp only [hw y]
  · simp only [KVector.PushBack, KVector.EmplaceBack, KVector.inflateAlloc, KVector.mkMove,
      if_true]
    cases x.eval h with
    | none => rfl
    | some y => rfl

/-- C19 (the code on every valid position): for a container that owns its
buffer and `pos < length`, the shift of `EraseAt(pos)` reads the slots
`pos + 1` to `length` and writes the slots `pos` to `length - 1`; slot
`length` is among the reads.  With a spare slot every access is inside the
buffer and the call succeeds; with length equal to capacity slot `length`
is not a slot of the buffer and the call is undefined. -/
theorem C19_erase_reads_slot_at_length (h : Heap T) (v : KVector) (s : List T) (pos : Nat)
    (hr : Rep h v s) (hpos : pos < v._sz) :
    ∃ a, v._array = some a ∧ a.add v._sz ∈ v.eraseReads pos ∧
      (∀ p ∈ v.eraseReads pos, p.blk = a.blk ∧ pos < p.off ∧ p.off ≤ v._sz) ∧
      (∀ q ∈ v.eraseWrites pos, q.blk = a.blk ∧ pos ≤ q.off ∧ q.off < v._sz) ∧
      (v._sz < v._alloc_size → (v.EraseAt h pos).isSome) ∧
      (v._alloc_size = v._sz → h.read (a.add v._sz) = none ∧ v.EraseAt h pos = none) := by
  obtain ⟨b, buf, ha, hb, hl, hle, ht⟩ := hr.unfold
  have hsub : subSizeT v._sz pos = v._sz - pos := by simp [subSizeT]; omega
  refine ⟨⟨b, 0⟩, ha, ?_, ?_, ?_, ?_, ?_⟩
  · rw [KVector.eraseReads, ha]
    simp only [hsub, mem_shiftLeftReads, Ptr.add]
    refine ⟨trivial, ?_, ?_⟩ <;> omega
  · intro p hp
    simp only [KVector.eraseReads, ha, hsub, mem_shiftLeftReads, Ptr.add] at hp
    exact ⟨hp.1, by omega, by omega⟩
  · intro q hq
    simp only [KVector.eraseWrites, ha, hsub, mem_shiftLeftWrites, Ptr.add] at hq
    exact ⟨hq.1, by omega, by omega⟩
  · intro hroom
    obtain ⟨h1, v1, e, _⟩ := EraseAt_spec h v s pos hr hroom hpos
    rw [e]; rfl
  · intro hfull
    refine ⟨?_, EraseAt_full h v s pos hr hfull hpos⟩
    simp only [Heap.read, Ptr.add, hb]
    exact List.getElem?_eq_none (by omega)

/-- C19 (witness): on the container whose 20 slots are all live, `EraseAt(1)`
reads slot 20 of a 20-slot buffer. -/
theorem C19_erase_reads_slot_at_length_witness :
    (Rep fullHeap fullVec (List.range 20) ∧ 1 < fullVec._sz) ∧
    (⟨0, 20⟩ : Ptr) ∈ fullVec.eraseReads 1 ∧ fullHeap.read ⟨0, 20⟩ = none ∧
    fullVec.EraseAt fullHeap 1 = none := by
  obtain ⟨a, ha, hm, _, _, _, hf⟩ :=
    C19_erase_reads_slot_at_length fullHeap fullVec (List.range 20) 1 fullVec_rep (by decide)
  cases ha
  exact ⟨⟨fullVec_rep, by decide⟩, hm, (hf rfl).1, (hf rfl).2⟩

/-- C20: over a linearly ordered element type, for containers `l` and `r` that
hold sequences all six operators return a value; exactly one of `l < r`,
`l == r`, `l > r` is true; `operator>(l, r)` equals `operator<(r, l)`;
`l <= r` is `l < r || l == r`, `l >= r` is `l > r || l == r`, and `l != r`
is the negation of `l == r`. -/
theorem C20_operators_consistent [LinearOrder T] (h : Heap T) (l r : KVector)
    (xs ys : List T) (hl : Holds h l xs) (hr : Holds h r ys) :
    ∃ lt eq gt, opLt neOf ltOf h l r = some lt ∧ opEq neOf h l r = some eq ∧
      opGt neOf gtOf h l r = some gt ∧
      ((lt = true ∧ eq = false ∧ gt = false) ∨ (lt = false ∧ eq = true ∧ gt = false) ∨
        (lt = false ∧ eq = false ∧ gt = true)) ∧
      opGt neOf gtOf h l r = opLt neOf ltOf h r l ∧
      opLe neOf gtOf h l r = some (lt || eq) ∧
      opGe neOf ltOf h l r = some (gt || eq) ∧
      opNe neOf h l r = some (!eq) := by
  have elt := opLt_spec neOf ltOf h l r xs ys hl hr
  have eeq := opEq_spec neOf h l r xs ys hl hr
  have egt := opGt_spec neOf gtOf h l r xs ys hl hr
  rw [refLexLess_flip] at egt
  have tri : (refLexLess neOf ltOf xs ys = true ∧ specEq neOf xs ys = false ∧
        refLexLess neOf ltOf ys xs = false) ∨
      (refLexLess neOf ltOf xs ys = false ∧ specEq neOf xs ys = true ∧
        refLexLess neOf ltOf ys xs = false) ∨
      (refLexLess neOf ltOf xs ys = false ∧ specEq neOf xs ys = false ∧
        refLexLess neOf ltOf ys xs = true) := by
    rw [specEq_neOf]
    rcases lex_trichotomy xs ys with t | t | t
    · exact Or.inl ⟨t.1, by simp [t.2.1], t.2.2⟩
    · exact Or.inr (Or.inl ⟨t.1, by simp [t.2.1], t.2.2⟩)
    · exact Or.inr (Or.inr ⟨t.1, by simp [t.2.1], t.2.2⟩)
  refine ⟨_, _, _, elt, eeq, egt, tri, ?_, ?_, ?_, ?_⟩
  · rw [egt, opLt_spec neOf ltOf h r l ys xs hr hl]
  · simp only [opLe, egt, Option.map_some']
    rcases tri with t | t | t <;> simp [t.1, t.2.1, t.2.2]
  · simp only [opGe, elt, Option.map_some']
    rcases tri with t | t | t <;> simp [t.1, t.2.1, t.2.2]
  · simp only [opNe, eeq, Option.map_some']

/-- C20 (witness): for the containers built from `{1, 3}` and `{1, 2}`,
`operator>` is true and equals `operator<` with the operands exchanged. -/
theorem C20_operators_consistent_witness :
    (Holds sampleHeap sampleC [1, 3] ∧ Holds sampleHeap sampleA [1, 2]) ∧
    opGt neOf gtOf sampleHeap sampleC sampleA = opLt neOf ltOf sampleHeap sampleA sampleC := by
  refine ⟨⟨sampleC_holds, sampleA_holds⟩, ?_⟩
  obtain ⟨_, _, _, _, _, _, _, e, _⟩ := C20_operators_consistent sampleHeap sampleC sampleA
    [1, 3] [1, 2] sampleC_holds sampleA_holds
  exact e

end Claims

end KVec
